import Mathlib

set_option autoImplicit false

/-!
Verification development for the endpoint-inference and templated-replay
subsystem of the efda-scraper repository, a shallow embedding of
`src/efda_scraper/api_capture.py` and `src/efda_scraper/api_runner.py`.

Python strings are modelled as Lean `String` values manipulated through
their underlying character lists; Python dicts appear as association
lists in insertion order (Python dicts preserve insertion order and
cannot hold duplicate keys); JSON-like Python values are the inductive
type `Json`; `None` at an optional position is `Option.none`.  Python
floats produced by the scoring heuristics only ever take integer values
(sums of integer literals), so scores are modelled as `Int`.
-/

namespace Efda

/-! Character and string primitives used by the two source files. -/

/-- Python `str.lower()` restricted to ASCII case mapping. -/
def pyLower (s : String) : String := String.mk (s.data.map Char.toLower)

/-- Python `str.upper()` restricted to ASCII case mapping. -/
def pyUpper (s : String) : String := String.mk (s.data.map Char.toUpper)

/-- Whitespace characters stripped by Python `str.strip()` (ASCII subset). -/
def isPySpace (c : Char) : Bool :=
  c = ' ' || c = '\t' || c = '\n' || c = '\r' || c = '\x0b' || c = '\x0c'

/-- Python `str.strip()`. -/
def pyStrip (s : String) : String :=
  String.mk (((s.data.dropWhile isPySpace).reverse.dropWhile isPySpace).reverse)

/-- Substring search on character lists: does `needle` occur in the list? -/
def listSub (needle : List Char) : List Char → Bool
  | [] => needle.isEmpty
  | c :: rest => needle.isPrefixOf (c :: rest) || listSub needle rest

/-- Python substring containment `needle in hay` for strings. -/
def pyIn (needle hay : String) : Bool := listSub needle.data hay.data

/-- Python `str.isdigit()` restricted to ASCII digits. -/
def digitsL (l : List Char) : Bool := !l.isEmpty && l.all Char.isDigit

/-- Character class of the identifier regex `[0-9a-fA-F-]` used on path segments. -/
def isHexIdChar (c : Char) : Bool :=
  c.isDigit || ('a' ≤ c && c ≤ 'f') || ('A' ≤ c && c ≤ 'F') || c = '-'

/-- Full match of `re.fullmatch(r"[0-9a-fA-F-]{16,}", segment)`. -/
def hexIdL (l : List Char) : Bool := decide (l.length ≥ 16) && l.all isHexIdChar

/-- First character class of the placeholder regex `[a-zA-Z_]`. -/
def isIdentStart (c : Char) : Bool := c.isAlpha || c = '_'

/-- Continuation character class of the placeholder regex `[a-zA-Z0-9_]`. -/
def isIdentChar (c : Char) : Bool := c.isAlphanum || c = '_'

/-- Whether a character list is a well-formed placeholder name
`[a-zA-Z_][a-zA-Z0-9_]*`. -/
def isIdentName : List Char → Bool
  | [] => false
  | c :: rest => isIdentStart c && rest.all isIdentChar

/-! Generic split and join on a separator character, modelling Python
`str.split(sep)` (which always returns at least one chunk) and
`sep.join(chunks)`. -/

/-- Python `str.split(sep)` on character lists. -/
def splitOnSep (sep : Char) : List Char → List (List Char)
  | [] => [[]]
  | c :: rest =>
    if c = sep then [] :: splitOnSep sep rest
    else
      match splitOnSep sep rest with
      | [] => [[c]]
      | s :: ss => (c :: s) :: ss

/-- Python `sep.join(chunks)` on character lists. -/
def joinOnSep (sep : Char) : List (List Char) → List Char
  | [] => []
  | [s] => s
  | s :: rest => s ++ sep :: joinOnSep sep rest

/-- Split a character list at the first occurrence of `sep`; `none` when
`sep` does not occur. -/
def splitFirst (sep : Char) : List Char → Option (List Char × List Char)
  | [] => none
  | c :: rest =>
    if c = sep then some ([], rest)
    else (splitFirst sep rest).map (fun p => (c :: p.1, p.2))

/-! JSON-like Python values. -/

/-- JSON-like Python values as produced by `json.loads` and
`request.post_data_json`.  Numbers are modelled as integers (the values
relevant to this subsystem are identifiers and counts). -/
inductive Json where
  | null
  | bool (b : Bool)
  | num (n : Int)
  | str (s : String)
  | arr (items : List Json)
  | obj (fields : List (String × Json))

/-- Whether a value is object-shaped (`isinstance(value, dict)`). -/
def isObjJson : Json → Bool
  | .obj _ => true
  | _ => false

/-- Python `dict.get(key)` on an association list. -/
def objGetKvs (kvs : List (String × Json)) (k : String) : Option Json :=
  (kvs.find? (fun p => p.1 == k)).map (fun p => p.2)

/-- Field list of an object-shaped value, empty for anything else. -/
def objFields : Json → List (String × Json)
  | .obj kvs => kvs
  | _ => []

/-- Python `str(value)` for the scalar values that reach it in this
subsystem (identifier and reference fields); container values are
rendered with a fixed marker, which no claim depends on. -/
def pyStr : Json → String
  | .null => "None"
  | .bool true => "True"
  | .bool false => "False"
  | .num n => toString n
  | .str s => s
  | .arr _ => "<list>"
  | .obj _ => "<dict>"

/-- Python test `value not in (None, "")`. -/
def notNoneOrEmpty : Json → Bool
  | .null => false
  | .str s => !(s == "")
  | _ => true

/-! Record Extractor (`_extract_records`, identical in both source files). -/

/-- Ordered container-key aliases probed by `_extract_records`. -/
def recordAliasKeys : List String :=
  ["items", "results", "records", "data", "content", "value"]

/-- Probe of the alias keys in order, returning the first value that is a
list (`isinstance(value, list)`). -/
def probeAliases (kvs : List (String × Json)) : List String → Option (List Json)
  | [] => none
  | k :: ks =>
    match objGetKvs kvs k with
    | some (.arr l) => some l
    | _ => probeAliases kvs ks

/-- Shallow embedding of `_extract_records`. -/
def extract_records : Json → List Json
  | .arr l => l.filter isObjJson
  | .obj kvs =>
    match probeAliases kvs recordAliasKeys with
    | some l => l.filter isObjJson
    | none => []
  | _ => []

/-- Record extraction applied to an optional payload (`None` yields no
records, as `_extract_records(None)` falls through to the empty list). -/
def extractRecordsOpt : Option Json → List Json
  | none => []
  | some j => extract_records j

/-! Capture Recorder: header redaction and event construction
(`_redact_headers`, `on_request`, `on_response` in `api_capture.py`). -/

/-- Header names replaced by the redaction marker in `_redact_headers`. -/
def sensitiveHeaderNames : List String :=
  ["authorization", "cookie", "set-cookie", "x-csrf-token"]

/-- The fixed redaction marker. -/
def redactionMarker : String := "<redacted>"

/-- Shallow embedding of `_redact_headers`. -/
def redact_headers (headers : List (String × String)) : List (String × String) :=
  headers.map (fun p =>
    if sensitiveHeaderNames.contains (pyLower p.1) then (p.1, redactionMarker) else p)

/-- URL relevance tokens (`_CAPTURE_URL_TOKENS`). -/
def captureUrlTokens : List String :=
  ["api", "import", "supplier", "product", "permit", "medicine", "eris"]

/-- Shallow embedding of `_looks_like_api`. -/
def looks_like_api (url : String) : Bool :=
  captureUrlTokens.any (fun token => pyIn token (pyLower url))

/-- One merged captured event, keyed by `METHOD URL` in the recorder. -/
structure Event where
  method : String
  url : String
  resource_type : String
  request_headers : List (String × String)
  request_json : Option Json
  status : Option Int
  response_headers : List (String × String)
  response_json : Option Json
  response_preview : Option String

/-- Request-side data as delivered by the browser, before redaction. -/
structure RawRequest where
  method : String
  url : String
  resource_type : String
  headers : List (String × String)
  post_json : Option Json

/-- Response-side data as delivered by the browser, before redaction.
Body parsing (`_response_json_or_preview`) is abstracted: `json` and
`preview` carry its two results. -/
structure RawResponse where
  status : Int
  headers : List (String × String)
  json : Option Json
  preview : Option String

/-- Event freshly created from a request (the dict literal shared by
`on_request` and the `setdefault` default of `on_response`). -/
def new_event_of_request (r : RawRequest) : Event :=
  { method := r.method
    url := r.url
    resource_type := r.resource_type
    request_headers := redact_headers r.headers
    request_json := r.post_json
    status := none
    response_headers := []
    response_json := none
    response_preview := none }

/-- Response-side merge performed by `on_response` on the stored event. -/
def merge_response (e : Event) (resp : RawResponse) : Event :=
  { e with
    status := some resp.status
    response_headers := redact_headers resp.headers
    response_json := resp.json
    response_preview := resp.preview }

/-- Event stored by `on_response`: the existing event for the key if any,
otherwise a fresh one from the request side, with the response merged in. -/
def on_response_event (existing : Option Event) (r : RawRequest) (resp : RawResponse) : Event :=
  merge_response (existing.getD (new_event_of_request r)) resp

/-! Placeholder classification (`_key_placeholder` and the alias sets). -/

/-- Page-number key aliases (`_PAGE_KEYS`). -/
def pageKeys : List String :=
  ["page", "pageindex", "pagenumber", "currentpage", "skip", "offset", "start"]

/-- Page-size key aliases (`_PAGE_SIZE_KEYS`). -/
def pageSizeKeys : List String :=
  ["pagesize", "size", "limit", "take", "maxresultcount", "length"]

/-- Identifier key aliases (`_ID_KEYS`). -/
def idKeys : List String :=
  ["id", "importid", "requestid", "applicationid", "permitid"]

/-- Header whitelist (`_HEADER_WHITELIST`). -/
def headerWhitelist : List String := ["accept", "content-type", "x-requested-with"]

/-- Shallow embedding of `_key_placeholder`. -/
def key_placeholder (key : String) : Option String :=
  let lower := pyLower key
  if pageKeys.contains lower then some "{page}"
  else if pageSizeKeys.contains lower then some "{page_size}"
  else if idKeys.contains lower || (pyIn "import" lower && pyIn "id" lower) then
    some "{import_id}"
  else if pyIn "reference" lower || pyIn "permit" lower then some "{import_reference}"
  else none

/-! URL parsing and unparsing, modelling the subset of
`urllib.parse.urlparse` / `urlunparse` exercised by the source:
absolute URLs without parameters; percent-decoding is not modelled
(the claims only involve URLs without percent escapes). -/

/-- Components produced by the `urlparse` model. -/
structure UrlParts where
  scheme : String
  netloc : String
  path : String
  query : String

/-- Valid non-initial scheme characters. -/
def isSchemeChar (c : Char) : Bool := c.isAlphanum || c = '+' || c = '-' || c = '.'

/-- Whether a chunk is a valid URL scheme (letter followed by
letters, digits, `+`, `-`, `.`). -/
def validScheme : List Char → Bool
  | [] => false
  | c :: rest => c.isAlpha && rest.all isSchemeChar

/-- Scheme stage of the `urlparse` model: chunk before the first colon
when it is a valid scheme (returned lowercased), empty otherwise. -/
def parseScheme (l : List Char) : String × List Char :=
  match splitFirst ':' l with
  | some (pre, post) =>
    if validScheme pre then (String.mk (pre.map Char.toLower), post) else ("", l)
  | none => ("", l)

/-- Netloc stage of the `urlparse` model: after a leading `//`, the
chunk up to the first `/`, `?` or `#`. -/
def parseNetloc : List Char → String × List Char
  | '/' :: '/' :: r =>
    (String.mk (r.takeWhile (fun c => c ≠ '/' && c ≠ '?' && c ≠ '#')),
     r.drop ((r.takeWhile (fun c => c ≠ '/' && c ≠ '?' && c ≠ '#')).length))
  | rest => ("", rest)

/-- Path and query stage of the `urlparse` model: the fragment is cut
first, then the remainder splits at the first `?`. -/
def parsePathQuery (l : List Char) : String × String :=
  match splitFirst '?' (l.takeWhile (fun c => c ≠ '#')) with
  | some (p, q) => (String.mk p, String.mk q)
  | none => (String.mk (l.takeWhile (fun c => c ≠ '#')), "")

/-- Model of `urllib.parse.urlparse` returning scheme (lowercased),
netloc, path and query. -/
def parseUrl (u : String) : UrlParts :=
  let sp := parseScheme u.data
  let np := parseNetloc sp.2
  let pq := parsePathQuery np.2
  ⟨sp.1, np.1, pq.1, pq.2⟩

/-- Model of `urllib.parse.urlunparse((scheme, netloc, path, "", "", ""))`,
following the branches of CPython `urlunsplit` with empty params, query
and fragment. -/
def urlunparseSNP (scheme netloc path : String) : String :=
  let url1 :=
    if netloc ≠ "" || path.data.take 2 = ['/', '/'] then
      let p := if path ≠ "" && path.data.head? ≠ some '/' then "/" ++ path else path
      "//" ++ netloc ++ p
    else path
  if scheme ≠ "" then scheme ++ ":" ++ url1 else url1

/-! Query-string parsing, modelling `urllib.parse.parse_qs` without
percent/plus decoding (no claim involves escaped query strings). -/

/-- Name-value pairs of a query string, as `parse_qsl`: empty chunks are
skipped, a missing `=` keeps the chunk as a blank-valued name only when
blanks are kept, blank values are kept only when `keepBlank` is true. -/
def parseQsPairs (keepBlank : Bool) (q : String) : List (String × String) :=
  (splitOnSep '&' q.data).filterMap (fun chunk =>
    if chunk.isEmpty then none
    else
      match splitFirst '=' chunk with
      | some (n, v) =>
        if !v.isEmpty || keepBlank then some (String.mk n, String.mk v) else none
      | none => if keepBlank then some (String.mk chunk, "") else none)

/-- Append a value under a key, preserving first-occurrence key order. -/
def addPair (acc : List (String × List String)) (k : String) (v : String) :
    List (String × List String) :=
  match acc with
  | [] => [(k, [v])]
  | (k2, vs) :: rest =>
    if k2 = k then (k2, vs ++ [v]) :: rest else (k2, vs) :: addPair rest k v

/-- Model of `urllib.parse.parse_qs`. -/
def parse_qs (keepBlank : Bool) (q : String) : List (String × List String) :=
  (parseQsPairs keepBlank q).foldl (fun acc p => addPair acc p.1 p.2) []

/-! Template Builder (`_template_json_value`, `_template_from_event`). -/

mutual

/-- Shallow embedding of `_template_json_value`: object keys drive the
placeholder classification of their values, list elements inherit the
key hint of their container, scalars under a matched hint become the
placeholder string. -/
def template_json_value (keyHint : Option String) : Json → Json
  | .obj fields => .obj (template_json_obj fields)
  | .arr items => .arr (template_json_arr keyHint items)
  | v =>
    match keyHint with
    | some k =>
      match key_placeholder k with
      | some ph => .str ph
      | none => v
    | none => v

/-- Elementwise `_template_json_value` over a list with a shared hint. -/
def template_json_arr (keyHint : Option String) : List Json → List Json
  | [] => []
  | x :: xs => template_json_value keyHint x :: template_json_arr keyHint xs

/-- Fieldwise `_template_json_value` over object fields, each value
hinted by its own key. -/
def template_json_obj : List (String × Json) → List (String × Json)
  | [] => []
  | (k, v) :: xs => (k, template_json_value (some k) v) :: template_json_obj xs

end

/-- Path-segment substitution rule of `_template_from_event`: a non-empty
segment that is purely numeric or matches 16-plus hex-like characters
becomes `{import_id}`, except for the `imports_list` role. -/
def segRule (role : String) (seg : List Char) : List Char :=
  if seg.isEmpty then seg
  else if role ≠ "imports_list" && (digitsL seg || hexIdL seg) then
    "{import_id}".data
  else seg

/-- Templated URL path of `_template_from_event`: split on `/`, apply the
segment rule, join back on `/`. -/
def template_path (path : String) (role : String) : String :=
  String.mk (joinOnSep '/' ((splitOnSep '/' path.data).map (segRule role)))

/-- One inferred endpoint template. -/
structure Template where
  method : String
  url : String
  params : List (String × String)
  json : Option Json
  headers : List (String × String)
  sample_url : String
  sample_status : Option Int

/-- Shallow embedding of `_template_from_event`. -/
def template_from_event (e : Event) (role : String) : Template :=
  let parsed := parseUrl e.url
  let query := parse_qs true parsed.query
  let path_template := template_path parsed.path role
  let params_template := query.map (fun p => (p.1, (key_placeholder p.1).getD (p.2.headD "")))
  let json_template := e.request_json.map (template_json_value none)
  let headers_template := e.request_headers.filter (fun p =>
    headerWhitelist.contains (pyLower p.1) && p.2 ≠ "" && p.2 ≠ redactionMarker)
  { method := e.method
    url := urlunparseSNP parsed.scheme parsed.netloc path_template
    params := params_template
    json := json_template
    headers := headers_template
    sample_url := e.url
    sample_status := e.status }

/-! Role Classifier (`_score_imports_list`, `_score_role`,
`_infer_endpoints`). -/

/-- Shallow embedding of `_score_imports_list` (float score with integer
value, modelled as `Int`). -/
def score_imports_list (e : Event) : Int :=
  let url := pyLower e.url
  let records := extractRecordsOpt e.response_json
  let queryKeys := (parse_qs false (parseUrl e.url).query).map (fun p => pyLower p.1)
  let firstKeys : List String :=
    match records.head? with
    | some r => (objFields r).map (fun p => pyLower p.1)
    | none => []
  (if !records.isEmpty then (50 : Int) else 0)
    + (if pyIn "import" url then 25 else 0)
    + (if pyIn "product" url || pyIn "supplier" url then -25 else 0)
    + (if e.method = "GET" || e.method = "POST" then 5 else 0)
    + (if queryKeys.any (fun k => pageKeys.contains k) then 10 else 0)
    + (if queryKeys.any (fun k => pageSizeKeys.contains k) then 10 else 0)
    + (if !records.isEmpty && firstKeys.any (fun k => pyIn "id" k) then 8 else 0)
    + (if !records.isEmpty && firstKeys.any (fun k => pyIn "reference" k || pyIn "permit" k)
       then 8 else 0)

/-- Shallow embedding of `_score_role`. -/
def score_role (e : Event) (role : String) : Int :=
  let url := pyLower e.url
  let records := extractRecordsOpt e.response_json
  let isDict := match e.response_json with | some (.obj _) => true | _ => false
  let base : Int :=
    if role = "import_products" then
      (if pyIn "product" url then (40 : Int) else 0)
        + (if pyIn "import" url then 10 else 0)
        + (if pyIn "supplier" url then -10 else 0)
        + (if !records.isEmpty then 30 else 0)
    else if role = "import_suppliers" then
      (if pyIn "supplier" url then (40 : Int) else 0)
        + (if pyIn "import" url then 10 else 0)
        + (if pyIn "product" url then -10 else 0)
        + (if !records.isEmpty then 30 else 0)
    else if role = "import_detail" then
      (if pyIn "import" url then (25 : Int) else 0)
        + (if isDict then 25 else 0)
        + (if !records.isEmpty then -15 else 0)
    else 0
  base + (if e.method = "GET" || e.method = "POST" then 5 else 0)

/-- First maximal element under a score function, matching both Python
`max(xs, key=f)` and the head of a stable descending sort by `f`. -/
def pickBestBy (f : Event → Int) : List Event → Option Event
  | [] => none
  | e :: rest =>
    match pickBestBy f rest with
    | none => some e
    | some b => if f b ≤ f e then some e else some b

/-- Qualifying events of `_infer_endpoints`: integer status below 400,
non-null parsed JSON response body, relevance-token URL. -/
def successfulOf (events : List Event) : List Event :=
  events.filter (fun e =>
    (match e.status with | some s => decide (s < 400) | none => false)
      && e.response_json.isSome && looks_like_api e.url)

/-- Identifier alias keys probed by `_first_record_identifiers`. -/
def idAliasKeys : List String := ["id", "importId", "import_id", "requestId", "applicationId"]

/-- Reference alias keys probed by `_first_record_identifiers`. -/
def refAliasKeys : List String :=
  ["reference", "referenceNo", "referenceNumber", "permitNo", "permitNumber"]

/-- First alias key that is present with a value that is neither `None`
nor the empty string, rendered with `str`. -/
def firstAliasValue (fields : List (String × Json)) : List String → Option String
  | [] => none
  | k :: ks =>
    match objGetKvs fields k with
    | some v => if notNoneOrEmpty v then some (pyStr v) else firstAliasValue fields ks
    | none => firstAliasValue fields ks

/-- Shallow embedding of `_first_record_identifiers`. -/
def first_record_identifiers (payload : Option Json) : Option String × Option String :=
  match (extractRecordsOpt payload).head? with
  | none => (none, none)
  | some r => (firstAliasValue (objFields r) idAliasKeys, firstAliasValue (objFields r) refAliasKeys)

/-- The derived `sample_fields` block of the endpoint catalog. -/
structure SampleFields where
  page : Int
  page_size : Int
  import_id : Option String
  import_reference : Option String

/-- The endpoint catalog emitted by `_infer_endpoints`; an absent key of
the Python dict is `none`. -/
structure Catalog where
  imports_list : Option Template := none
  import_detail : Option Template := none
  import_products : Option Template := none
  import_suppliers : Option Template := none
  sample_fields : Option SampleFields := none
  captured_event_count : Option Nat := none

/-- Secondary-role template selection of `_infer_endpoints`: take the
best-scoring qualifying event and keep it only when its score is not
below the threshold 20. -/
def roleTemplate (successful : List Event) (role : String) : Option Template :=
  match pickBestBy (fun e => score_role e role) successful with
  | none => none
  | some best =>
    if score_role best role < 20 then none else some (template_from_event best role)

/-- Shallow embedding of `_infer_endpoints`. -/
def infer_endpoints (events : List Event) : Catalog :=
  let successful := successfulOf events
  match pickBestBy score_imports_list successful with
  | none => {}
  | some il =>
    { imports_list := some (template_from_event il "imports_list")
      import_detail := roleTemplate successful "import_detail"
      import_products := roleTemplate successful "import_products"
      import_suppliers := roleTemplate successful "import_suppliers"
      sample_fields := some
        { page := 1
          page_size := 50
          import_id := (first_record_identifiers il.response_json).1
          import_reference := (first_record_identifiers il.response_json).2 }
      captured_event_count := some events.length }

/-- Catalog lookup by role key, for stating properties uniformly over the
secondary roles. -/
def Catalog.roleGet (c : Catalog) (role : String) : Option Template :=
  if role = "import_detail" then c.import_detail
  else if role = "import_products" then c.import_products
  else if role = "import_suppliers" then c.import_suppliers
  else none

/-! Linkage Heuristic (`_build_links` in `api_runner.py`). -/

/-- Normalized product row (`_normalize_products` output shape). -/
structure ProductRec where
  product_name : Option String
  supplier_name : Option String

/-- Normalized supplier row (`_normalize_suppliers` output shape). -/
structure SupplierRec where
  supplier_name : Option String

/-- One product-to-supplier link. -/
structure LinkRec where
  product_name : Option String
  supplier_name : Option String
  confidence : String
  source : String

/-- Python truthiness of an optional string. -/
def truthyStr : Option String → Bool
  | some s => !(s == "")
  | none => false

/-- Order-preserving deduplication, as `list(dict.fromkeys(...))`. -/
def dedupAux (seen : List String) : List String → List String
  | [] => []
  | x :: xs => if seen.contains x then dedupAux seen xs else x :: dedupAux (x :: seen) xs

/-- First-occurrence deduplication. -/
def dedupKeepFirst (l : List String) : List String := dedupAux [] l

/-- Deduplicated, stripped, non-empty supplier names, exactly as computed
at the top of `_build_links`. -/
def supplierNamesOf (suppliers : List SupplierRec) : List String :=
  dedupKeepFirst
    ((suppliers.filterMap (fun s =>
      if truthyStr s.supplier_name then some (pyStrip (s.supplier_name.getD "")) else none)).filter
      (fun n => n ≠ ""))

/-- Per-product link rule of `_build_links`. -/
def linkFor (supplier_names : List String) (p : ProductRec) : LinkRec :=
  if truthyStr p.supplier_name then
    { product_name := p.product_name
      supplier_name := p.supplier_name
      confidence := "high"
      source := "product_row" }
  else if supplier_names.length = 1 then
    { product_name := p.product_name
      supplier_name := supplier_names.head?
      confidence := "medium"
      source := "single_supplier_in_import" }
  else
    { product_name := p.product_name
      supplier_name := none
      confidence := "low"
      source := "unresolved" }

/-- Shallow embedding of `_build_links`. -/
def build_links (products : List ProductRec) (suppliers : List SupplierRec) : List LinkRec :=
  products.map (linkFor (supplierNamesOf suppliers))

/-! Placeholder Resolver / Replay Executor (`_format_recursive`,
`_contains_placeholder`, `_call_endpoint`, `_load_endpoints`). -/

/-- A replay field binding, with values already rendered as strings
(Python `str.format` renders non-string values through `str`). -/
abbrev Binding : Type := List (String × String)

/-- Lookup of a field name in a binding. -/
def lookupStr (b : Binding) (name : List Char) : Option String :=
  (b.find? (fun p => p.1.data == name)).map (fun p => p.2)

/-- Decimal value of an all-digit character list (`int` applied to a
format-spec width, precision or index). -/
def natOfDigits (l : List Char) : Nat :=
  l.foldl (fun n c => n * 10 + (c.toNat - 48)) 0

/-- Lowercase hexadecimal digit of a value below 16. -/
def hexDigit (n : Nat) : Char :=
  if n < 10 then Char.ofNat (48 + n) else Char.ofNat (87 + n)

/-- Fixed-width lowercase hexadecimal rendering, most significant digit
first, as in CPython backslash escapes. -/
def hexDigits : Nat → Nat → List Char
  | 0, _ => []
  | k + 1, n => hexDigits k (n / 16) ++ [hexDigit (n % 16)]

/-- Quote character chosen by CPython `repr` on a string: a single
quote, switching to a double quote when the text contains a single
quote but no double quote. -/
def reprQuote (s : List Char) : Char :=
  if s.contains (Char.ofNat 39) && !(s.contains '"') then '"' else Char.ofNat 39

/-- CPython `repr` escape of one character under the chosen quote:
backslash and the quote are backslash-escaped, tab, newline and
carriage return use mnemonic escapes, remaining ASCII control
characters use a two-digit `\xHH` escape, and every other character is
kept verbatim (CPython also escapes non-printable characters beyond
ASCII, which never arise here). -/
def reprEscape (quote : Char) (c : Char) : List Char :=
  if c = '\\' then ['\\', '\\']
  else if c = quote then ['\\', quote]
  else if c = '\t' then ['\\', 't']
  else if c = '\n' then ['\\', 'n']
  else if c = '\r' then ['\\', 'r']
  else if c.toNat < 32 ∨ c.toNat = 127 then '\\' :: 'x' :: hexDigits 2 c.toNat
  else [c]

/-- Escape used by the `!a` conversion (`ascii`): like `repr`, with
every character beyond ASCII rendered as a `\xHH`, `\uHHHH` or
`\UHHHHHHHH` escape. -/
def asciiEscape (quote : Char) (c : Char) : List Char :=
  if c.toNat < 128 then reprEscape quote c
  else if c.toNat < 256 then '\\' :: 'x' :: hexDigits 2 c.toNat
  else if c.toNat < 65536 then '\\' :: 'u' :: hexDigits 4 c.toNat
  else '\\' :: 'U' :: hexDigits 8 c.toNat

/-- CPython `repr` of a string (the `!r` conversion). -/
def pyReprStr (s : List Char) : List Char :=
  let q := reprQuote s
  q :: (s.map (reprEscape q)).flatten ++ [q]

/-- CPython `ascii` of a string (the `!a` conversion). -/
def pyAsciiStr (s : List Char) : List Char :=
  let q := reprQuote s
  q :: (s.map (asciiEscape q)).flatten ++ [q]

/-- The `!s`, `!r` and `!a` conversions on a string value; any other
conversion specifier raises ValueError. -/
def applyConv (cv : List Char) (v : List Char) : Option (List Char) :=
  if cv = ['s'] then some v
  else if cv = ['r'] then some (pyReprStr v)
  else if cv = ['a'] then some (pyAsciiStr v)
  else none

/-- Parsed format specification for a string value: fill, alignment,
minimum width and precision. -/
structure SpecParts where
  fill : Char
  align : Option Char
  width : Nat
  precision : Option Nat

/-- Alignment characters of the format mini-language. -/
def alignChar (c : Char) : Bool := c = '<' || c = '>' || c = '^' || c = '='

/-- Fill-and-alignment prefix of a format spec: a two-character prefix
whose second character is an alignment carries an explicit fill,
otherwise a leading alignment character uses the default space fill.
Returns fill, alignment, whether the fill was explicit, and the rest
of the spec. -/
def parseFillAlign (spec : List Char) : Char × Option Char × Bool × List Char :=
  match spec with
  | c1 :: c2 :: rest =>
    if alignChar c2 then (c1, some c2, true, rest)
    else if alignChar c1 then (' ', some c1, false, c2 :: rest)
    else (' ', none, false, c1 :: c2 :: rest)
  | [c1] =>
    if alignChar c1 then (' ', some c1, false, [])
    else (' ', none, false, [c1])
  | [] => (' ', none, false, [])

/-- Presentation type accepted for a string value: empty or `s`. -/
def strTypeOk (l : List Char) : Bool :=
  match l with
  | [] => true
  | ['s'] => true
  | _ => false

/-- Parse of a format spec applied to a string value, mirroring CPython
`format(str, spec)`: optional fill and alignment, the zero flag (a
leading `0` after the alignment supplies the fill when none was
explicit, and no longer forces `=` alignment on strings), a digit
width, an optional `.digits` precision and an optional `s` type.  A
sign, the alternate form `#`, grouping `,`/`_`, any other presentation
type or a brace fill raises ValueError; those characters all fall
through to the type check, which rejects them. -/
def parseSpec (spec : List Char) : Option SpecParts :=
  match parseFillAlign spec with
  | (fill0, align, fillSpecified, r1) =>
    if fill0 = '{' ∨ fill0 = '}' then none
    else
      let zf := !fillSpecified && r1.head? == some '0'
      let fill := if zf then '0' else fill0
      let r2 := if zf then r1.tail else r1
      let width := natOfDigits (r2.takeWhile Char.isDigit)
      let r3 := r2.dropWhile Char.isDigit
      match r3 with
      | '.' :: r4 =>
        let pc := r4.takeWhile Char.isDigit
        let r5 := r4.dropWhile Char.isDigit
        if pc.isEmpty then none
        else if strTypeOk r5 then some ⟨fill, align, width, some (natOfDigits pc)⟩
        else none
      | _ => if strTypeOk r3 then some ⟨fill, align, width, none⟩ else none

/-- Application of a parsed spec to a string value: truncate to the
precision, then pad with the fill up to the width; `<` (the default
for strings) pads on the right, `>` pads on the left, `^` centres with
the extra fill on the right; the `=` alignment raises ValueError for
string values. -/
def renderSpec (p : SpecParts) (v : List Char) : Option (List Char) :=
  let v2 := match p.precision with
    | some n => v.take n
    | none => v
  let al := p.align.getD '<'
  if al = '=' then none
  else if v2.length < p.width then
    let pad := p.width - v2.length
    if al = '>' then some (List.replicate pad p.fill ++ v2)
    else if al = '^' then
      some (List.replicate (pad / 2) p.fill ++ v2 ++ List.replicate (pad - pad / 2) p.fill)
    else some (v2 ++ List.replicate pad p.fill)
  else some v2

/-- One index trailer `[i]` applied to a string value: an all-digit
index takes the character at that position (IndexError past the end),
any other index is a string key and raises TypeError on a string. -/
def idxApply (v : List Char) (idx : List Char) : Option (List Char) :=
  if digitsL idx then
    match v[natOfDigits idx]? with
    | some c => some [c]
    | none => none
  else none

/-- Trailer scanner state: between trailers, or inside an index bracket
with the reversed accumulated index text. -/
inductive TrMode where
  | top
  | idx (acc : List Char)

/-- Index-trailer evaluation on a field value.  Attribute trailers
(`.name`) are modelled as raising: on a string value CPython resolves
them to bound methods whose rendering embeds a runtime memory address
(so no deterministic template can use them), and every non-method
attribute raises AttributeError. -/
def trailersGo (v : List Char) : TrMode → List Char → Option (List Char)
  | .top, [] => some v
  | .top, c :: rest => if c = '[' then trailersGo v (.idx []) rest else none
  | .idx _, [] => none
  | .idx acc, c :: rest =>
    if c = ']' then
      match idxApply v acc.reverse with
      | some v2 => trailersGo v2 .top rest
      | none => none
    else trailersGo v (.idx (c :: acc)) rest

/-- Evaluation of one replacement field (the text between the braces)
against the binding, mirroring CPython `str.format` called with
string-valued keyword arguments: the field splits at its first `:`
into name-plus-conversion and format spec, the name part splits at its
first `!` into field name and conversion, and the field name is a
keyword (an empty or all-digit name is positional and raises
IndexError, because `format(**fields)` passes no positional
arguments) followed by index trailers.  A missing keyword raises
KeyError.  Nested replacement fields inside a format spec are modelled
as raising (no template built by the capturer contains one), and a `:`
or `!` inside an index bracket is split eagerly here, which is
outcome-equivalent because CPython raises TypeError on every string
key applied to a string value. -/
def evalField (b : Binding) (field : List Char) : Option (List Char) :=
  match (match splitFirst ':' field with
         | some p => (p.1, some p.2)
         | none => (field, none)) with
  | (nameConv, spec) =>
    match (match splitFirst '!' nameConv with
           | some p => (p.1, some p.2)
           | none => (nameConv, none)) with
    | (nameT, conv) =>
      let base := nameT.takeWhile (fun c => !(c == '.' || c == '['))
      let trailers := nameT.dropWhile (fun c => !(c == '.' || c == '['))
      if base.all Char.isDigit then none
      else
        match lookupStr b base with
        | none => none
        | some v =>
          match trailersGo v.data .top trailers with
          | none => none
          | some v1 =>
            match (match conv with
                   | some cv => applyConv cv v1
                   | none => some v1) with
            | none => none
            | some v3 =>
              match spec with
              | none => some v3
              | some sp =>
                match parseSpec sp with
                | none => none
                | some ps => renderSpec ps v3

/-- Scanner state of the `str.format` model: ordinary text, or inside a
replacement field with the reversed accumulated field text. -/
inductive FmtMode where
  | norm
  | field (acc : List Char)

/-- Model of CPython `str.format(**binding)` on character lists:
`\x7b\x7d` escapes are honoured, a replacement field runs to the first
closing brace and is evaluated by `evalField` (keyword lookup, index
trailers, `!s`/`!r`/`!a` conversions and the string format spec — so a
field such as `\x7bimport_id:/>10\x7d` substitutes a slash-padded
value), and an unmatched or stray brace raises ValueError.  `none` is
any raise. -/
def fmtGo (b : Binding) : FmtMode → List Char → Option (List Char)
  | .norm, [] => some []
  | .norm, c :: rest =>
    if c = '{' then
      match rest with
      | c2 :: rest2 =>
        if c2 = '{' then (fmtGo b .norm rest2).map (fun out => '{' :: out)
        else fmtGo b (.field []) (c2 :: rest2)
      | [] => none
    else if c = '}' then
      match rest with
      | c2 :: rest2 =>
        if c2 = '}' then (fmtGo b .norm rest2).map (fun out => '}' :: out)
        else none
      | [] => none
    else (fmtGo b .norm rest).map (fun out => c :: out)
  | .field _, [] => none
  | .field acc, c :: rest =>
    if c = '}' then
      match evalField b acc.reverse with
      | some w => (fmtGo b .norm rest).map (fun out => w ++ out)
      | none => none
    else fmtGo b (.field (c :: acc)) rest

/-- Python `value.format(**fields)` wrapped in the `try/except` of
`_format_recursive`: any raise returns the string unchanged. -/
def formatString (s : String) (b : Binding) : String :=
  match fmtGo b .norm s.data with
  | some out => String.mk out
  | none => s

mutual

/-- Shallow embedding of `_format_recursive` on JSON-like values. -/
def format_recursive (b : Binding) : Json → Json
  | .str s => .str (formatString s b)
  | .arr items => .arr (format_recursive_arr b items)
  | .obj fields => .obj (format_recursive_obj b fields)
  | v => v

/-- Elementwise `_format_recursive` over list elements. -/
def format_recursive_arr (b : Binding) : List Json → List Json
  | [] => []
  | x :: xs => format_recursive b x :: format_recursive_arr b xs

/-- Valuewise `_format_recursive` over object fields (keys unchanged). -/
def format_recursive_obj (b : Binding) : List (String × Json) → List (String × Json)
  | [] => []
  | (k, v) :: xs => (k, format_recursive b v) :: format_recursive_obj b xs

end

/-- Continuation of the placeholder regex after `\x7b` and a valid first
character: zero or more identifier characters then `\x7d`. -/
def placeholderClose : List Char → Bool
  | [] => false
  | c :: rest => if c = '}' then true else isIdentChar c && placeholderClose rest

/-- Match of the placeholder regex at the position directly after an
opening brace: one identifier-start character, the closing scan. -/
def startPlaceholder : List Char → Bool
  | [] => false
  | c :: rest => isIdentStart c && placeholderClose rest

/-- Search for a placeholder-shaped token, modelling
`re.search(r"\x7b[a-zA-Z_][a-zA-Z0-9_]*\x7d", value)`. -/
def hasPlaceholderL : List Char → Bool
  | [] => false
  | c :: rest => (c = '{' && startPlaceholder rest) || hasPlaceholderL rest

/-- Shallow embedding of `_contains_placeholder` on a string. -/
def contains_placeholder_str (s : String) : Bool := hasPlaceholderL s.data

mutual

/-- Shallow embedding of `_contains_placeholder` on JSON-like values
(dict branch scans values only). -/
def contains_placeholder : Json → Bool
  | .str s => contains_placeholder_str s
  | .arr items => contains_placeholder_arr items
  | .obj fields => contains_placeholder_obj fields
  | _ => false

/-- Any-element placeholder scan over list elements. -/
def contains_placeholder_arr : List Json → Bool
  | [] => false
  | x :: xs => contains_placeholder x || contains_placeholder_arr xs

/-- Any-value placeholder scan over object fields. -/
def contains_placeholder_obj : List (String × Json) → Bool
  | [] => false
  | (_, v) :: xs => contains_placeholder v || contains_placeholder_obj xs

end

/-- Placeholder scan of an optional JSON body (`None` scans false). -/
def containsPlaceholderOpt : Option Json → Bool
  | none => false
  | some j => contains_placeholder j

mutual

/-- Whether a JSON-like value contains a given string as a leaf. -/
def jsonHasStrLeaf (target : String) : Json → Bool
  | .str s => s == target
  | .arr items => jsonArrHasStrLeaf target items
  | .obj fields => jsonObjHasStrLeaf target fields
  | _ => false

/-- Leaf search over list elements. -/
def jsonArrHasStrLeaf (target : String) : List Json → Bool
  | [] => false
  | x :: xs => jsonHasStrLeaf target x || jsonArrHasStrLeaf target xs

/-- Leaf search over object fields. -/
def jsonObjHasStrLeaf (target : String) : List (String × Json) → Bool
  | [] => false
  | (_, v) :: xs => jsonHasStrLeaf target v || jsonObjHasStrLeaf target xs

end

/-- Arguments handed to the injected HTTP execution context
(`_browser_fetch_json`). -/
structure FetchCall where
  url : String
  method : String
  params : List (String × String)
  headers : List (String × String)
  json_body : Option Json

/-- Shallow embedding of `_call_endpoint`, parameterized by the injected
HTTP execution context `fetch`; the second component counts the network
calls performed. -/
def call_endpoint {α : Type} (fetch : FetchCall → α) (ep : Template) (fields : Binding) :
    Option α × Nat :=
  let method := pyUpper ep.method
  let url := formatString ep.url fields
  let params := ep.params.map (fun p => (p.1, formatString p.2 fields))
  let json_body := ep.json.map (format_recursive fields)
  if contains_placeholder_str url || params.any (fun p => contains_placeholder_str p.2)
      || containsPlaceholderOpt json_body then
    (none, 0)
  else
    (some (fetch
      { url := url, method := method, params := params, headers := ep.headers,
        json_body := json_body }), 1)

/-- Python membership `needle in data` on a JSON-like value: key lookup
for dicts, element equality for lists, substring for strings; `none`
models the `TypeError` raised on other values. -/
def pyMem (needle : String) : Json → Option Bool
  | .obj kvs => some (kvs.any (fun p => p.1 == needle))
  | .arr xs => some (xs.any (fun j => match j with | .str s => s == needle | _ => false))
  | .str s => some (pyIn needle s)
  | _ => none

/-- Shallow embedding of `_load_endpoints` over the parsed content of the
endpoint catalog file: `none` input models an absent file. -/
def load_endpoints : Option Json → Except String Json
  | none => .error "Missing API endpoints file"
  | some data =>
    match pyMem "imports_list" data with
    | some true => .ok data
    | some false => .error "API endpoints file missing imports_list"
    | none => .error "TypeError"

/-- Whether a load attempt raised. -/
def isLoadError (r : Except String Json) : Bool :=
  match r with
  | .ok _ => false
  | .error _ => true


/-! Additional definitions used to state the claims: the spec-side
membership-only classifier, the path-segment count of a URL, and
concrete captured events for the scenario claims. -/

/-- Modelled from the claim wording, for comparison with
`key_placeholder`: classification purely by case-insensitive membership
in four fixed key-alias sets.  The source fixes only three such sets
(`_PAGE_KEYS`, `_PAGE_SIZE_KEYS`, `_ID_KEYS`); the fourth (reference)
set is instantiated here with the reference aliases the source fixes in
`_first_record_identifiers`. -/
def specKeyPlaceholderByMembership (key : String) : Option String :=
  let lower := pyLower key
  if pageKeys.contains lower then some "{page}"
  else if pageSizeKeys.contains lower then some "{page_size}"
  else if idKeys.contains lower then some "{import_id}"
  else if (refAliasKeys.map pyLower).contains lower then some "{import_reference}"
  else none

/-- Number of path segments of a URL: length of the `/`-split of the
path component. -/
def pathSegCount (u : String) : Nat :=
  (splitOnSep '/' (parseUrl u).path.data).length

/-- Captured event whose `import_products` role score is exactly the
threshold 20: relevance token `supplier` in the URL (score -10), a
record-yielding list body (+30), and a non-GET/POST method (+0). -/
def eventScore20 : Event :=
  { method := "PUT"
    url := "https://h.example/supplier"
    resource_type := "xhr"
    request_headers := []
    request_json := none
    status := some 200
    response_headers := []
    response_json := some (.arr [.obj [("a", .num 1)]])
    response_preview := none }

/-- Scenario event 1: `GET /api/ImportPermit/List` with a paginated list
body. -/
def evList : Event :=
  { method := "GET"
    url := "https://portal.example/api/ImportPermit/List"
    resource_type := "xhr"
    request_headers := []
    request_json := none
    status := some 200
    response_headers := []
    response_json := some (.obj [("recordsTotal", .num 2), ("data", .arr [.obj [("id", .num 1)]])])
    response_preview := none }

/-- Scenario event 2: `GET /api/ImportPermit/5/Products`. -/
def evProducts : Event :=
  { method := "GET"
    url := "https://portal.example/api/ImportPermit/5/Products"
    resource_type := "xhr"
    request_headers := []
    request_json := none
    status := some 200
    response_headers := []
    response_json := some (.arr [.obj [("name", .str "X")]])
    response_preview := none }

/-- Scenario event 3: `GET /api/ImportPermit/5/Suppliers`. -/
def evSuppliers : Event :=
  { method := "GET"
    url := "https://portal.example/api/ImportPermit/5/Suppliers"
    resource_type := "xhr"
    request_headers := []
    request_json := none
    status := some 200
    response_headers := []
    response_json := some (.arr [.obj [("name", .str "Y")]])
    response_preview := none }

/-- Captured event whose URL path carries a literal format-spec
replacement field with a slash fill.  Its template keeps that segment
verbatim (it is neither numeric nor hex-like), and resolving the
template expands the field to nine filler slashes. -/
def evBraceSpec : Event :=
  { method := "GET"
    url := "https://h.example/api/5/a{import_id:/>10}b"
    resource_type := "xhr"
    request_headers := []
    request_json := none
    status := some 200
    response_headers := []
    response_json := some (.arr [.obj [("name", .str "X")]])
    response_preview := none }

/-- Template with an unresolvable placeholder leaf in its JSON body,
used to witness the replay safety theorem. -/
def tmplUnresolved : Template :=
  { method := "POST"
    url := "https://h.example/api/list"
    params := [("start", "{page}")]
    json := some (.obj [("importId", .str "{import_id}")])
    headers := []
    sample_url := "https://h.example/api/list"
    sample_status := some 200 }

/-! Helper lemmas about the split and join primitives. -/

theorem splitOnSep_ne_nil (sep : Char) (l : List Char) : splitOnSep sep l ≠ [] := by
  induction l with
  | nil => simp [splitOnSep]
  | cons c rest ih =>
    simp only [splitOnSep]
    split
    · simp
    · cases h : splitOnSep sep rest <;> simp

theorem joinOnSep_cons_of_ne_nil (sep : Char) (s : List Char) (ss : List (List Char))
    (h : ss ≠ []) : joinOnSep sep (s :: ss) = s ++ sep :: joinOnSep sep ss := by
  cases ss with
  | nil => exact absurd rfl h
  | cons t ts => rfl

theorem joinOnSep_splitOnSep (sep : Char) (l : List Char) :
    joinOnSep sep (splitOnSep sep l) = l := by
  induction l with
  | nil => rfl
  | cons c rest ih =>
    simp only [splitOnSep]
    split
    · next hc =>
      rw [joinOnSep_cons_of_ne_nil sep [] _ (splitOnSep_ne_nil sep rest), ih]
      simp [hc]
    · next hc =>
      cases h : splitOnSep sep rest with
      | nil => exact absurd h (splitOnSep_ne_nil sep rest)
      | cons s ss =>
        rw [h] at ih
        cases ss with
        | nil =>
          simp only [joinOnSep] at ih ⊢
          rw [ih]
        | cons t ts =>
          rw [joinOnSep_cons_of_ne_nil sep (c :: s) (t :: ts) (by simp)]
          rw [joinOnSep_cons_of_ne_nil sep s (t :: ts) (by simp)] at ih
          simpa using ih

theorem splitOnSep_mem_not_sep (sep : Char) (l : List Char) :
    ∀ s ∈ splitOnSep sep l, sep ∉ s := by
  induction l with
  | nil =>
    intro s hs
    simp [splitOnSep] at hs
    simp [hs]
  | cons c rest ih =>
    intro s hs
    simp only [splitOnSep] at hs
    by_cases hc : c = sep
    · rw [if_pos hc] at hs
      rcases List.mem_cons.mp hs with h | h
      · simp [h]
      · exact ih s h
    · rw [if_neg hc] at hs
      cases h : splitOnSep sep rest with
      | nil => exact absurd h (splitOnSep_ne_nil sep rest)
      | cons t ts =>
        rw [h] at hs
        rcases List.mem_cons.mp hs with h2 | h2
        · subst h2
          intro hmem
          rcases List.mem_cons.mp hmem with h3 | h3
          · exact hc h3.symm
          · exact ih t (h ▸ List.mem_cons_self t ts) h3
        · exact ih s (h ▸ List.mem_cons.mpr (Or.inr h2))

theorem splitOnSep_all_not_sep (sep : Char) (l : List Char) (h : sep ∉ l) :
    splitOnSep sep l = [l] := by
  induction l with
  | nil => rfl
  | cons c rest ih =>
    have hc : c ≠ sep := fun hh => h (hh ▸ List.mem_cons_self c rest)
    have hrest : sep ∉ rest := fun hh => h (List.mem_cons.mpr (Or.inr hh))
    simp only [splitOnSep, if_neg (fun hh => hc hh), ih hrest]

theorem splitOnSep_append_sep (sep : Char) (a tail : List Char) (h : sep ∉ a) :
    splitOnSep sep (a ++ sep :: tail) = a :: splitOnSep sep tail := by
  induction a with
  | nil => simp [splitOnSep]
  | cons c a0 ih =>
    have hc : c ≠ sep := fun hh => h (hh ▸ List.mem_cons_self c a0)
    have ha0 : sep ∉ a0 := fun hh => h (List.mem_cons.mpr (Or.inr hh))
    show splitOnSep sep (c :: (a0 ++ sep :: tail)) = (c :: a0) :: splitOnSep sep tail
    simp only [splitOnSep, if_neg (fun hh => hc hh), ih ha0]

theorem splitOnSep_joinOnSep (sep : Char) (segs : List (List Char)) (h : segs ≠ [])
    (hfree : ∀ s ∈ segs, sep ∉ s) : splitOnSep sep (joinOnSep sep segs) = segs := by
  induction segs with
  | nil => exact absurd rfl h
  | cons s ss ih =>
    cases ss with
    | nil =>
      simp only [joinOnSep]
      exact splitOnSep_all_not_sep sep s (hfree s (List.mem_cons_self s []))
    | cons t ts =>
      rw [joinOnSep_cons_of_ne_nil sep s (t :: ts) (by simp)]
      rw [splitOnSep_append_sep sep s _ (hfree s (List.mem_cons_self s (t :: ts)))]
      rw [ih (by simp) (fun x hx => hfree x (List.mem_cons.mpr (Or.inr hx)))]

theorem splitOnSep_length (sep : Char) (l : List Char) :
    (splitOnSep sep l).length = l.count sep + 1 := by
  induction l with
  | nil => simp [splitOnSep]
  | cons c rest ih =>
    simp only [splitOnSep]
    by_cases hc : c = sep
    · rw [if_pos hc]
      simp [List.count_cons, hc, ih]
    · rw [if_neg hc]
      cases h : splitOnSep sep rest with
      | nil => exact absurd h (splitOnSep_ne_nil sep rest)
      | cons t ts =>
        rw [h] at ih
        simp only [List.length_cons] at ih ⊢
        rw [List.count_cons_of_ne (fun hh => hc hh.symm)]
        omega

theorem splitFirst_append_sep (sep : Char) (a tail : List Char) (h : sep ∉ a) :
    splitFirst sep (a ++ sep :: tail) = some (a, tail) := by
  induction a with
  | nil => simp [splitFirst]
  | cons c a0 ih =>
    have hc : c ≠ sep := fun hh => h (hh ▸ List.mem_cons_self c a0)
    have ha0 : sep ∉ a0 := fun hh => h (List.mem_cons.mpr (Or.inr hh))
    show splitFirst sep (c :: (a0 ++ sep :: tail)) = some (c :: a0, tail)
    simp only [splitFirst, if_neg (fun hh => hc hh), ih ha0, Option.map_some']

theorem splitFirst_none (sep : Char) (l : List Char) (h : sep ∉ l) :
    splitFirst sep l = none := by
  induction l with
  | nil => rfl
  | cons c rest ih =>
    have hc : c ≠ sep := fun hh => h (hh ▸ List.mem_cons_self c rest)
    have hrest : sep ∉ rest := fun hh => h (List.mem_cons.mpr (Or.inr hh))
    simp only [splitFirst, if_neg (fun hh => hc hh), ih hrest, Option.map_none']

theorem takeWhile_append_all (p : Char → Bool) (a b : List Char) (h : ∀ c ∈ a, p c = true) :
    (a ++ b).takeWhile p = a ++ b.takeWhile p := by
  induction a with
  | nil => simp
  | cons c a0 ih =>
    have hc := h c (List.mem_cons_self c a0)
    rw [List.cons_append, List.takeWhile_cons, if_pos hc, List.cons_append,
      ih (fun x hx => h x (List.mem_cons.mpr (Or.inr hx)))]

/-! Helper lemmas about `pickBestBy`. -/

theorem pickBestBy_eq_none_iff (f : Event → Int) (l : List Event) :
    pickBestBy f l = none ↔ l = [] := by
  cases l with
  | nil => simp [pickBestBy]
  | cons e rest =>
    cases hr : pickBestBy f rest with
    | none => simp [pickBestBy, hr]
    | some b =>
      simp only [pickBestBy, hr]
      split <;> simp

theorem pickBestBy_mem (f : Event → Int) (l : List Event) (b : Event)
    (h : pickBestBy f l = some b) : b ∈ l := by
  induction l generalizing b with
  | nil => simp [pickBestBy] at h
  | cons e rest ih =>
    cases hr : pickBestBy f rest with
    | none =>
      simp only [pickBestBy, hr, Option.some.injEq] at h
      subst h
      exact List.mem_cons_self e rest
    | some b2 =>
      simp only [pickBestBy, hr] at h
      split at h
      · simp only [Option.some.injEq] at h
        subst h
        exact List.mem_cons_self e rest
      · simp only [Option.some.injEq] at h
        subst h
        exact List.mem_cons.mpr (Or.inr (ih b2 hr))

theorem pickBestBy_le (f : Event → Int) (l : List Event) (b : Event)
    (h : pickBestBy f l = some b) : ∀ e ∈ l, f e ≤ f b := by
  induction l generalizing b with
  | nil => simp
  | cons e0 rest ih =>
    intro e he
    cases hr : pickBestBy f rest with
    | none =>
      have hrest : rest = [] := (pickBestBy_eq_none_iff f rest).mp hr
      simp only [pickBestBy, hr, Option.some.injEq] at h
      subst h
      rcases List.mem_cons.mp he with h2 | h2
      · subst h2
        exact le_refl _
      · rw [hrest] at h2
        simp at h2
    | some b2 =>
      simp only [pickBestBy, hr] at h
      split at h
      · next hle =>
        simp only [Option.some.injEq] at h
        subst h
        rcases List.mem_cons.mp he with h2 | h2
        · subst h2
          exact le_refl _
        · exact le_trans (ih b2 hr e h2) hle
      · next hlt =>
        simp only [Option.some.injEq] at h
        subst h
        rcases List.mem_cons.mp he with h2 | h2
        · subst h2
          omega
        · exact ih b2 hr e h2

/-! Helper lemmas about Boolean membership. -/

theorem contains_of_mem {s : String} {l : List String} (h : s ∈ l) : l.contains s = true :=
  List.elem_eq_true_of_mem h

theorem mem_of_contains {s : String} {l : List String} (h : l.contains s = true) : s ∈ l :=
  List.mem_of_elem_eq_true h

/-! Claim C2: catalog loading. -/

/-- C2: loading an endpoint catalog for replay raises an error if and
only if the catalog file is absent or its mapping lacks the key
`imports_list`; a catalog mapping containing `imports_list` is accepted
regardless of which other keys are present. -/
theorem load_endpoints_error_iff :
    isLoadError (load_endpoints none) = true ∧
    ∀ kvs : List (String × Json),
      (isLoadError (load_endpoints (some (.obj kvs))) = true ↔
        "imports_list" ∉ kvs.map Prod.fst) := by
  refine ⟨rfl, fun kvs => ?_⟩
  have hmem : (kvs.any (fun p => p.1 == "imports_list") = true) ↔
      "imports_list" ∈ kvs.map Prod.fst := by
    simp [List.any_eq_true, List.mem_map]
  cases h : kvs.any (fun p => p.1 == "imports_list") with
  | true =>
    simp only [load_endpoints, pyMem, h, isLoadError]
    simp [hmem.mp h]
  | false =>
    simp only [load_endpoints, pyMem, h, isLoadError]
    simp only [true_iff]
    intro hcontra
    rw [← hmem] at hcontra
    rw [h] at hcontra
    exact absurd hcontra (by simp)

/-- Witness for C2: a catalog without `imports_list` is rejected, one
with it (plus unrelated keys, none of the secondary roles) is accepted. -/
theorem load_endpoints_error_iff_witness :
    isLoadError (load_endpoints (some (.obj [("import_detail", Json.null)]))) = true ∧
    isLoadError (load_endpoints (some (.obj [("imports_list", Json.null), ("x", Json.null)]))) =
      false := by
  constructor
  · exact (load_endpoints_error_iff.2 [("import_detail", Json.null)]).mpr (by simp)
  · cases hb : isLoadError
        (load_endpoints (some (.obj [("imports_list", Json.null), ("x", Json.null)]))) with
    | false => rfl
    | true =>
      exact absurd ((load_endpoints_error_iff.2
        [("imports_list", Json.null), ("x", Json.null)]).mp hb) (by simp)

/-! Claim C3: record extraction. -/

theorem probeAliases_eq_head (kvs : List (String × Json)) (ks : List String) :
    probeAliases kvs ks =
      (ks.filterMap (fun k =>
        match objGetKvs kvs k with
        | some (.arr l) => some l
        | _ => none)).head? := by
  induction ks with
  | nil => rfl
  | cons k ks ih =>
    cases hv : objGetKvs kvs k with
    | none =>
      simp only [probeAliases, List.filterMap_cons, hv]
      exact ih
    | some v =>
      cases v <;> simp_all [probeAliases, List.filterMap_cons]

/-- C3 counterexample: with `items` bound to a list of non-objects and
`results` bound to a list of objects, the code stops at `items` (the
first alias whose value is a list) and returns the empty list, not the
record list under `results` that the claim predicts. -/
theorem extract_records_counterexample :
    extract_records
        (.obj [("items", .arr [.num 1]), ("results", .arr [.obj [("a", .num 1)]])]) = [] ∧
    ([] : List Json) ≠ [Json.obj [("a", Json.num 1)]] := by
  constructor
  · rfl
  · simp

/-- C3 amended: for every JSON-like value, `_extract_records` of a list
keeps exactly its object-shaped elements in order; of an object it
probes the ordered alias keys and returns the object-shaped elements of
the first alias whose value is a list of any elements (empty when no
alias holds a list); of any scalar it returns the empty list.  The
function is total, and the two concrete examples of the claim hold. -/
theorem extract_records_spec :
    (∀ l : List Json, extract_records (.arr l) = l.filter isObjJson) ∧
    (∀ kvs : List (String × Json),
      extract_records (.obj kvs) =
        (((recordAliasKeys.filterMap (fun k =>
            match objGetKvs kvs k with
            | some (.arr l) => some l
            | _ => none)).head?).getD []).filter isObjJson) ∧
    extract_records .null = [] ∧
    (∀ b, extract_records (.bool b) = []) ∧
    (∀ n, extract_records (.num n) = []) ∧
    (∀ s, extract_records (.str s) = []) ∧
    extract_records (.obj [("data", .arr [.obj [("a", .num 1)]])]) = [.obj [("a", .num 1)]] ∧
    extract_records (.obj [("foo", .num 1)]) = [] := by
  refine ⟨fun l => rfl, fun kvs => ?_, rfl, fun b => rfl, fun n => rfl, fun s => rfl, rfl, rfl⟩
  simp only [extract_records, probeAliases_eq_head kvs recordAliasKeys]
  cases h : (recordAliasKeys.filterMap (fun k =>
      match objGetKvs kvs k with
      | some (.arr l) => some l
      | _ => none)).head? with
  | none => rfl
  | some l => rfl

/-! Claim C4: header redaction. -/

/-- C4 counterexample: the source redacts `x-csrf-token`, not
`csrf-token`; a header named exactly `csrf-token` is stored in the
clear, contradicting the claimed redaction of that name. -/
theorem redact_headers_counterexample :
    redact_headers [("csrf-token", "secret")] = [("csrf-token", "secret")] ∧
    ("secret" : String) ≠ redactionMarker := by
  constructor
  · rfl
  · simp [redactionMarker]

/-- C4 amended: every header whose name case-insensitively equals one of
authorization, cookie, set-cookie, x-csrf-token has its value replaced
by the fixed redaction marker by `_redact_headers`, and both storage
paths of a captured event (request side on first sighting, response
side on merge) only ever store redacted header maps. -/
theorem redact_headers_sensitive :
    (∀ headers : List (String × String), ∀ k v, (k, v) ∈ redact_headers headers →
      pyLower k ∈ sensitiveHeaderNames → v = redactionMarker) ∧
    (∀ r : RawRequest, ∀ k v, (k, v) ∈ (new_event_of_request r).request_headers →
      pyLower k ∈ sensitiveHeaderNames → v = redactionMarker) ∧
    (∀ existing : Option Event, ∀ r : RawRequest, ∀ resp : RawResponse, ∀ k v,
      (k, v) ∈ (on_response_event existing r resp).response_headers →
      pyLower k ∈ sensitiveHeaderNames → v = redactionMarker) := by
  have core : ∀ headers : List (String × String), ∀ k v, (k, v) ∈ redact_headers headers →
      pyLower k ∈ sensitiveHeaderNames → v = redactionMarker := by
    intro headers k v hmem hsens
    simp only [redact_headers, List.mem_map] at hmem
    obtain ⟨p, hp, he⟩ := hmem
    by_cases hc : sensitiveHeaderNames.contains (pyLower p.1) = true
    · rw [if_pos hc] at he
      exact (congrArg Prod.snd he).symm
    · rw [if_neg hc] at he
      exfalso
      apply hc
      apply contains_of_mem
      have hk : p.1 = k := congrArg Prod.fst he
      rw [hk]
      exact hsens
  refine ⟨core, fun r k v h hs => ?_, fun existing r resp k v h hs => ?_⟩
  · exact core r.headers k v h hs
  · exact core resp.headers k v h hs

/-- Witness for C4 amended: an authorization header is redacted on both
storage paths. -/
theorem redact_headers_sensitive_witness :
    ∀ v, ("Authorization", v) ∈ redact_headers [("Authorization", "Bearer t")] →
      v = redactionMarker := by
  intro v h
  exact redact_headers_sensitive.1 [("Authorization", "Bearer t")] "Authorization" v h
    (by simp [pyLower, sensitiveHeaderNames])

/-! Claim C5: placeholder classification of keys. -/

/-- C5 counterexample: `customsreference` is a member of none of the
fixed key-alias sets yet is classified `{import_reference}` through the
substring test on `reference`; `importeridentity` is likewise
classified `{import_id}` through the substring test on `import` and
`id`, although it is in no alias set. -/
theorem key_placeholder_counterexample :
    key_placeholder "customsreference" = some "{import_reference}" ∧
    specKeyPlaceholderByMembership "customsreference" = none ∧
    key_placeholder "importeridentity" = some "{import_id}" ∧
    specKeyPlaceholderByMembership "importeridentity" = none :=
  ⟨rfl, rfl, rfl, rfl⟩

/-- C5 amended: a key is assigned a placeholder exactly when its
lowercased form is a member of the page or page-size alias sets, is a
member of the id alias set or contains both `import` and `id`, or
contains `reference` or `permit`; any other key keeps its literal
sampled value in the query template of `_template_from_event`. -/
theorem key_placeholder_spec :
    (∀ key : String,
      (key_placeholder key).isSome = true ↔
        (pyLower key ∈ pageKeys ∨ pyLower key ∈ pageSizeKeys ∨ pyLower key ∈ idKeys ∨
         (pyIn "import" (pyLower key) = true ∧ pyIn "id" (pyLower key) = true) ∨
         pyIn "reference" (pyLower key) = true ∨ pyIn "permit" (pyLower key) = true)) ∧
    (∀ e : Event, ∀ role : String, ∀ k : String, ∀ vs : List String,
      (k, vs) ∈ parse_qs true (parseUrl e.url).query →
        (key_placeholder k = none → (k, vs.headD "") ∈ (template_from_event e role).params) ∧
        (∀ ph, key_placeholder k = some ph → (k, ph) ∈ (template_from_event e role).params)) ∧
    key_placeholder "start" = some "{page}" ∧
    key_placeholder "length" = some "{page_size}" ∧
    key_placeholder "requestid" = some "{import_id}" ∧
    key_placeholder "permitno" = some "{import_reference}" ∧
    key_placeholder "foo" = none := by
  refine ⟨fun key => ?_, fun e role k vs hmem => ?_, rfl, rfl, rfl, rfl, rfl⟩
  · simp only [key_placeholder]
    split_ifs with h1 h2 h3 h4
    · simp [mem_of_contains h1]
    · simp [mem_of_contains h2]
    · rw [Bool.or_eq_true] at h3
      rcases h3 with h | h
      · simp [mem_of_contains h]
      · rw [Bool.and_eq_true] at h
        rcases h with ⟨ha, hb⟩
        simp [ha, hb]
    · rw [Bool.or_eq_true] at h4
      rcases h4 with h | h
      · simp [h]
      · simp [h]
    · simp only [Option.isSome_none, Bool.false_eq_true, false_iff]
      intro hcontra
      rcases hcontra with h | h | h | ⟨ha, hb⟩ | h | h
      · exact h1 (contains_of_mem h)
      · exact h2 (contains_of_mem h)
      · exact h3 (by rw [Bool.or_eq_true]; exact Or.inl (contains_of_mem h))
      · exact h3 (by rw [Bool.or_eq_true, Bool.and_eq_true]; exact Or.inr ⟨ha, hb⟩)
      · exact h4 (by rw [Bool.or_eq_true]; exact Or.inl h)
      · exact h4 (by rw [Bool.or_eq_true]; exact Or.inr h)
  · constructor
    · intro hk
      have : (k, vs.headD "") = (fun p => (p.1, (key_placeholder p.1).getD (p.2.headD "")))
          (k, vs) := by
        simp [hk]
      rw [this]
      exact List.mem_map_of_mem _ hmem
    · intro ph hk
      have : (k, ph) = (fun p => (p.1, (key_placeholder p.1).getD (p.2.headD ""))) (k, vs) := by
        simp [hk]
      rw [this]
      exact List.mem_map_of_mem _ hmem

/-- Witness for C5 amended: the classification test at the key
`customsreference` and the literal pass-through in a template built
from a query with an unmatched key. -/
theorem key_placeholder_spec_witness :
    (key_placeholder "customsreference").isSome = true ↔
      (pyLower "customsreference" ∈ pageKeys ∨ pyLower "customsreference" ∈ pageSizeKeys ∨
       pyLower "customsreference" ∈ idKeys ∨
       (pyIn "import" (pyLower "customsreference") = true ∧
        pyIn "id" (pyLower "customsreference") = true) ∨
       pyIn "reference" (pyLower "customsreference") = true ∨
       pyIn "permit" (pyLower "customsreference") = true) :=
  key_placeholder_spec.1 "customsreference"

/-! Claim C6: secondary-role threshold. -/

theorem roleTemplate_isSome_iff (S : List Event) (role : String) :
    (roleTemplate S role).isSome = true ↔ ∃ e ∈ S, 20 ≤ score_role e role := by
  cases hp : pickBestBy (fun e => score_role e role) S with
  | none =>
    have hS : S = [] := (pickBestBy_eq_none_iff _ S).mp hp
    subst hS
    simp [roleTemplate, hp]
  | some best =>
    simp only [roleTemplate, hp]
    split
    · next hlt =>
      simp only [Option.isSome_none, Bool.false_eq_true, false_iff]
      rintro ⟨e, he, hse⟩
      have := pickBestBy_le _ S best hp e he
      omega
    · next hge =>
      simp only [Option.isSome_some, true_iff]
      exact ⟨best, pickBestBy_mem _ S best hp, by omega⟩

/-- C6 counterexample: a single qualifying event with
`import_products` score exactly 20 (so no qualifying event exceeds the
threshold), for which the inferred catalog nevertheless contains the
`import_products` role. -/
theorem infer_threshold_counterexample :
    successfulOf [eventScore20] = [eventScore20] ∧
    score_role eventScore20 "import_products" = 20 ∧
    (infer_endpoints [eventScore20]).import_products.isSome = true :=
  ⟨rfl, rfl, rfl⟩

/-- C6 amended: each secondary role is present in the catalog exactly
when some qualifying event reaches a role score of at least the fixed
threshold 20 (the comparison is `score >= 20`, not strictly greater);
absence is silent. -/
theorem infer_role_threshold (events : List Event) (role : String)
    (hrole : role = "import_detail" ∨ role = "import_products" ∨ role = "import_suppliers") :
    ((infer_endpoints events).roleGet role).isSome = true ↔
      ∃ e ∈ successfulOf events, 20 ≤ score_role e role := by
  cases hp : pickBestBy score_imports_list (successfulOf events) with
  | none =>
    have hS : successfulOf events = [] := (pickBestBy_eq_none_iff _ _).mp hp
    simp only [infer_endpoints, hp]
    rcases hrole with h | h | h <;> subst h <;> simp [Catalog.roleGet, hS]
  | some il =>
    simp only [infer_endpoints, hp]
    rcases hrole with h | h | h <;> subst h <;>
      simpa [Catalog.roleGet] using roleTemplate_isSome_iff (successfulOf events) _

/-- Witness for C6 amended: at the threshold-score event, the role is
present and the existential holds. -/
theorem infer_role_threshold_witness :
    ((infer_endpoints [eventScore20]).roleGet "import_products").isSome = true :=
  (infer_role_threshold [eventScore20] "import_products" (Or.inr (Or.inl rfl))).mpr
    ⟨eventScore20, by
      rw [show successfulOf [eventScore20] = [eventScore20] from rfl]
      simp, by decide⟩

/-! Claim C9: linkage heuristic. -/

/-- C9: `_build_links` emits exactly one link per product in product
order; a product with a truthy supplier name links to it with high
confidence and source `product_row`; otherwise a unique deduplicated
non-empty supplier name links with medium confidence and source
`single_supplier_in_import`; otherwise the link is unresolved with low
confidence and a null supplier.  The two concrete examples of the claim
hold. -/
theorem build_links_spec :
    (∀ (products : List ProductRec) (suppliers : List SupplierRec),
      (build_links products suppliers).length = products.length) ∧
    (∀ (products : List ProductRec) (suppliers : List SupplierRec),
      build_links products suppliers = products.map (fun p =>
        if truthyStr p.supplier_name = true then
          { product_name := p.product_name, supplier_name := p.supplier_name,
            confidence := "high", source := "product_row" }
        else if (supplierNamesOf suppliers).length = 1 then
          { product_name := p.product_name, supplier_name := (supplierNamesOf suppliers).head?,
            confidence := "medium", source := "single_supplier_in_import" }
        else
          { product_name := p.product_name, supplier_name := none,
            confidence := "low", source := "unresolved" })) ∧
    build_links [⟨some "P1", some "A"⟩, ⟨some "P2", none⟩] [⟨some "A"⟩] =
      [⟨some "P1", some "A", "high", "product_row"⟩,
       ⟨some "P2", some "A", "medium", "single_supplier_in_import"⟩] ∧
    build_links [⟨some "P1", some "A"⟩, ⟨some "P2", none⟩] [⟨some "A"⟩, ⟨some "B"⟩] =
      [⟨some "P1", some "A", "high", "product_row"⟩,
       ⟨some "P2", none, "low", "unresolved"⟩] := by
  refine ⟨fun ps ss => ?_, fun ps ss => rfl, rfl, rfl⟩
  simp [build_links]

/-! Claim C10: catalog gating on qualifying events. -/

/-- C10: with no qualifying event (integer status below 400, non-null
parsed JSON body, relevance-token URL) the inference returns the empty
mapping, with no `imports_list`, `sample_fields` or
`captured_event_count` keys; with at least one qualifying event all
three keys are present. -/
theorem infer_endpoints_gating (events : List Event) :
    (successfulOf events = [] → infer_endpoints events = {}) ∧
    (successfulOf events ≠ [] →
      (infer_endpoints events).imports_list.isSome = true ∧
      (infer_endpoints events).sample_fields.isSome = true ∧
      (infer_endpoints events).captured_event_count.isSome = true) := by
  constructor
  · intro h
    simp [infer_endpoints, h, pickBestBy]
  · intro h
    cases hp : pickBestBy score_imports_list (successfulOf events) with
    | none => exact absurd ((pickBestBy_eq_none_iff _ _).mp hp) h
    | some il => simp [infer_endpoints, hp]

/-- Witness for C10: the empty capture yields the empty catalog; a
capture with one qualifying event yields the mandatory keys. -/
theorem infer_endpoints_gating_witness :
    infer_endpoints [] = {} ∧
    (infer_endpoints [eventScore20]).imports_list.isSome = true :=
  ⟨(infer_endpoints_gating []).1 rfl,
   ((infer_endpoints_gating [eventScore20]).2 (by
      rw [show successfulOf [eventScore20] = [eventScore20] from rfl]
      simp)).1⟩

/-! Character-class lemmas for placeholder names. -/

theorem identChar_of_identStart {c : Char} (h : isIdentStart c = true) : isIdentChar c = true := by
  simp only [isIdentStart, Bool.or_eq_true] at h
  simp only [isIdentChar, Char.isAlphanum, Bool.or_eq_true]
  rcases h with h | h
  · exact Or.inl (Or.inl h)
  · exact Or.inr h

theorem identStart_ne_braces {c : Char} (h : isIdentStart c = true) : c ≠ '{' ∧ c ≠ '}' := by
  refine ⟨fun hc => ?_, fun hc => ?_⟩ <;> subst hc <;> exact absurd h (by decide)

theorem identChar_ne_braces {c : Char} (h : isIdentChar c = true) : c ≠ '{' ∧ c ≠ '}' := by
  refine ⟨fun hc => ?_, fun hc => ?_⟩ <;> subst hc <;> exact absurd h (by decide)

theorem identName_all {name : List Char} (h : isIdentName name = true) :
    name.all isIdentChar = true := by
  cases name with
  | nil => simp [isIdentName] at h
  | cons c cs =>
    simp only [isIdentName, Bool.and_eq_true] at h
    simp only [List.all_cons, Bool.and_eq_true]
    exact ⟨identChar_of_identStart h.1, h.2⟩

theorem not_mem_of_all_ident {name : List Char} {c0 : Char}
    (hall : name.all isIdentChar = true) (hc0 : isIdentChar c0 = false) : c0 ∉ name := by
  intro hmem
  have := List.all_eq_true.mp hall c0 hmem
  rw [hc0] at this
  exact absurd this (by simp)

/-! Behaviour of the format scanner on an exact plain-identifier
placeholder field. -/

theorem fmtGo_field_run (b : Binding) (xs : List Char) (h : '}' ∉ xs) :
    ∀ acc rest, fmtGo b (.field acc) (xs ++ '}' :: rest) =
      (match evalField b (acc.reverse ++ xs) with
       | some w => (fmtGo b .norm rest).map (fun out => w ++ out)
       | none => none) := by
  induction xs with
  | nil =>
    intro acc rest
    simp [fmtGo]
  | cons x xs ih =>
    intro acc rest
    have hx : x ≠ '}' := fun hh => h (hh ▸ List.mem_cons_self x xs)
    have step : fmtGo b (.field acc) (x :: (xs ++ '}' :: rest)) =
        fmtGo b (.field (x :: acc)) (xs ++ '}' :: rest) := by
      simp only [fmtGo, if_neg hx]
    rw [List.cons_append, step, ih (fun hh => h (List.mem_cons.mpr (Or.inr hh))) (x :: acc) rest]
    simp [List.reverse_cons, List.append_assoc]

theorem identStart_not_digit {c : Char} (h : isIdentStart c = true) : c.isDigit = false := by
  simp only [isIdentStart, Bool.or_eq_true] at h
  by_contra hdig
  rw [Bool.not_eq_false] at hdig
  rcases h with h | h
  · simp only [Char.isDigit, Bool.and_eq_true, decide_eq_true_eq] at hdig
    have d2 : c.val.toNat ≤ 57 := UInt32.toNat_le_of_le (by norm_num [UInt32.size]) hdig.2
    simp only [Char.isAlpha, Char.isUpper, Char.isLower, Bool.or_eq_true, Bool.and_eq_true,
      decide_eq_true_eq] at h
    rcases h with ⟨h1, h2⟩ | ⟨h1, h2⟩
    · have l1 : 65 ≤ c.val.toNat := UInt32.le_toNat_of_le (by norm_num [UInt32.size]) h1
      omega
    · have l1 : 97 ≤ c.val.toNat := UInt32.le_toNat_of_le (by norm_num [UInt32.size]) h1
      omega
  · have hc : c = '_' := of_decide_eq_true h
    subst hc
    exact absurd hdig (by decide)

theorem dropWhile_all {p : Char → Bool} {l : List Char} (h : ∀ c ∈ l, p c = true) :
    l.dropWhile p = [] := by
  induction l with
  | nil => rfl
  | cons c rest ih =>
    rw [List.dropWhile_cons, if_pos (h c (List.mem_cons_self c rest))]
    exact ih (fun x hx => h x (List.mem_cons.mpr (Or.inr hx)))

/-- On a plain identifier field (the only kind the template builder
emits), `evalField` is exactly keyword lookup. -/
theorem evalField_plain (b : Binding) (name : List Char) (hid : isIdentName name = true) :
    evalField b name = (lookupStr b name).map String.data := by
  have hall := identName_all hid
  have hnotdot : ∀ c ∈ name, (!(c == '.' || c == '[')) = true := by
    intro c hc
    have := List.all_eq_true.mp hall c hc
    simp only [Bool.not_eq_true', Bool.or_eq_false_iff, beq_eq_false_iff_ne]
    have hb := identChar_ne_braces this
    constructor
    · intro hh
      subst hh
      exact absurd this (by decide)
    · intro hh
      subst hh
      exact absurd this (by decide)
  have htake : name.takeWhile (fun c => !(c == '.' || c == '[')) = name := by
    have := takeWhile_append_all (fun c => !(c == '.' || c == '[')) name [] hnotdot
    simpa using this
  have hdrop : name.dropWhile (fun c => !(c == '.' || c == '[')) = [] := dropWhile_all hnotdot
  have hdig : name.all Char.isDigit = false := by
    cases name with
    | nil => simp [isIdentName] at hid
    | cons c cs =>
      simp only [isIdentName, Bool.and_eq_true] at hid
      simp only [List.all_cons, Bool.and_eq_false_iff]
      exact Or.inl (identStart_not_digit hid.1)
  unfold evalField
  simp only [splitFirst_none ':' name (not_mem_of_all_ident hall (by decide)),
    splitFirst_none '!' name (not_mem_of_all_ident hall (by decide)),
    htake, hdrop, hdig, Bool.false_eq_true, if_false]
  cases lookupStr b name with
  | none => rfl
  | some v => rfl

/-- A plain identifier placeholder substitutes the bound value and
raises KeyError on a missing key, exactly as before the field grammar
was enriched. -/
theorem fmtGo_plain_field (b : Binding) (name : List Char) (hid : isIdentName name = true)
    (rest : List Char) :
    fmtGo b .norm ('{' :: (name ++ '}' :: rest)) =
      (match lookupStr b name with
       | some v => (fmtGo b .norm rest).map (fun out => v.data ++ out)
       | none => none) := by
  cases name with
  | nil => simp [isIdentName] at hid
  | cons c cs =>
    have hstart : isIdentStart c = true := by
      simp only [isIdentName, Bool.and_eq_true] at hid
      exact hid.1
    have hbc : c ≠ '{' := (identStart_ne_braces hstart).1
    have hrun := fmtGo_field_run b (c :: cs)
      (not_mem_of_all_ident (identName_all hid) (by decide)) [] rest
    simp only [List.reverse_nil, List.nil_append, List.cons_append] at hrun
    have step : fmtGo b .norm ('{' :: (c :: (cs ++ '}' :: rest))) =
        (if c = '{' then (fmtGo b .norm (cs ++ '}' :: rest)).map (fun out => '{' :: out)
         else fmtGo b (.field []) (c :: (cs ++ '}' :: rest))) := rfl
    rw [List.cons_append, step, if_neg hbc, hrun, evalField_plain b (c :: cs) hid]
    cases lookupStr b (c :: cs) with
    | none => rfl
    | some v => rfl

theorem fmtGo_exact_placeholder_missing (b : Binding) (name : List Char)
    (hid : isIdentName name = true) (hmiss : lookupStr b name = none) :
    fmtGo b .norm ('{' :: (name ++ '}' :: [])) = none := by
  rw [fmtGo_plain_field b name hid [], hmiss]

theorem formatString_exact_placeholder_missing (b : Binding) (name : String)
    (hid : isIdentName name.data = true) (hmiss : lookupStr b name.data = none) :
    formatString ("\x7b" ++ name ++ "\x7d") b = "\x7b" ++ name ++ "\x7d" := by
  unfold formatString
  have hdata : ("\x7b" ++ name ++ "\x7d").data = '{' :: (name.data ++ '}' :: []) := by
    simp [String.data_append]
  rw [hdata, fmtGo_exact_placeholder_missing b name.data hid hmiss]

/-! The placeholder regex matches an exact placeholder. -/

theorem placeholderClose_of_ident (cs : List Char) (rest : List Char)
    (h : cs.all isIdentChar = true) : placeholderClose (cs ++ '}' :: rest) = true := by
  induction cs with
  | nil => simp [placeholderClose]
  | cons c cs ih =>
    simp only [List.all_cons, Bool.and_eq_true] at h
    have hc : c ≠ '}' := (identChar_ne_braces h.1).2
    simp only [List.cons_append, placeholderClose, if_neg hc, h.1, Bool.true_and]
    exact ih h.2

theorem hasPlaceholder_exact (name : List Char) (hid : isIdentName name = true)
    (rest : List Char) : hasPlaceholderL ('{' :: (name ++ '}' :: rest)) = true := by
  cases name with
  | cons c cs =>
    simp only [isIdentName, Bool.and_eq_true] at hid
    simp only [hasPlaceholderL, List.cons_append, startPlaceholder, Bool.or_eq_true]
    exact Or.inl (by
      simp [hid.1, placeholderClose_of_ident cs rest hid.2])
  | nil => simp [isIdentName] at hid

theorem contains_placeholder_str_exact (name : String) (hid : isIdentName name.data = true) :
    contains_placeholder_str ("\x7b" ++ name ++ "\x7d") = true := by
  unfold contains_placeholder_str
  have hdata : ("\x7b" ++ name ++ "\x7d").data = '{' :: (name.data ++ '}' :: []) := by
    simp [String.data_append]
  rw [hdata]
  exact hasPlaceholder_exact name.data hid []

/-! Structural induction over JSON-like values (the nested inductive
needs a membership-based principle). -/

theorem Json.inductionOn (motive : Json → Prop)
    (hnull : motive .null) (hbool : ∀ b, motive (.bool b)) (hnum : ∀ n, motive (.num n))
    (hstr : ∀ s, motive (.str s))
    (harr : ∀ l, (∀ x ∈ l, motive x) → motive (.arr l))
    (hobj : ∀ l, (∀ p ∈ l, motive p.2) → motive (.obj l)) :
    ∀ j, motive j := by
  have key : ∀ n (j : Json), sizeOf j ≤ n → motive j := by
    intro n
    induction n with
    | zero =>
      intro j h
      cases j <;> simp at h
    | succ n ih =>
      intro j h
      cases j with
      | null => exact hnull
      | bool b => exact hbool b
      | num m => exact hnum m
      | str s => exact hstr s
      | arr l =>
        refine harr l (fun x hx => ih x ?_)
        have := List.sizeOf_lt_of_mem hx
        simp at h
        omega
      | obj l =>
        refine hobj l (fun p hp => ih p.2 ?_)
        have h1 := List.sizeOf_lt_of_mem hp
        have h2 : sizeOf p.2 < sizeOf p := by
          obtain ⟨a, c⟩ := p
          simp
        simp at h
        omega
  intro j
  exact key (sizeOf j) j le_rfl

/-! Leaf preservation under recursive formatting, and placeholder
detection through a leaf. -/

theorem format_recursive_leaf (b : Binding) (target : String) :
    ∀ j, jsonHasStrLeaf target j = true →
      jsonHasStrLeaf (formatString target b) (format_recursive b j) = true := by
  intro j
  induction j using Json.inductionOn with
  | hnull => intro h; simp [jsonHasStrLeaf] at h
  | hbool b0 => intro h; simp [jsonHasStrLeaf] at h
  | hnum n => intro h; simp [jsonHasStrLeaf] at h
  | hstr s =>
    intro h
    simp only [jsonHasStrLeaf, beq_iff_eq] at h
    subst h
    simp [format_recursive, jsonHasStrLeaf]
  | harr l ih =>
    intro h
    simp only [format_recursive]
    simp only [jsonHasStrLeaf] at h ⊢
    induction l with
    | nil => simp [jsonArrHasStrLeaf] at h
    | cons x xs ihl =>
      simp only [jsonArrHasStrLeaf, Bool.or_eq_true] at h
      simp only [format_recursive_arr, jsonArrHasStrLeaf, Bool.or_eq_true]
      rcases h with h | h
      · exact Or.inl (ih x (List.mem_cons_self x xs) h)
      · exact Or.inr (ihl (fun y hy => ih y (List.mem_cons.mpr (Or.inr hy))) h)
  | hobj l ih =>
    intro h
    simp only [format_recursive]
    simp only [jsonHasStrLeaf] at h ⊢
    induction l with
    | nil => simp [jsonObjHasStrLeaf] at h
    | cons p ps ihl =>
      obtain ⟨k, v⟩ := p
      simp only [jsonObjHasStrLeaf, Bool.or_eq_true] at h
      simp only [format_recursive_obj, jsonObjHasStrLeaf, Bool.or_eq_true]
      rcases h with h | h
      · exact Or.inl (ih (k, v) (List.mem_cons_self _ ps) h)
      · exact Or.inr (ihl (fun y hy => ih y (List.mem_cons.mpr (Or.inr hy))) h)

theorem contains_placeholder_of_leaf (target : String)
    (htarget : contains_placeholder_str target = true) :
    ∀ j, jsonHasStrLeaf target j = true → contains_placeholder j = true := by
  intro j
  induction j using Json.inductionOn with
  | hnull => intro h; simp [jsonHasStrLeaf] at h
  | hbool b0 => intro h; simp [jsonHasStrLeaf] at h
  | hnum n => intro h; simp [jsonHasStrLeaf] at h
  | hstr s =>
    intro h
    simp only [jsonHasStrLeaf, beq_iff_eq] at h
    subst h
    simpa [contains_placeholder] using htarget
  | harr l ih =>
    intro h
    simp only [jsonHasStrLeaf] at h
    simp only [contains_placeholder]
    induction l with
    | nil => simp [jsonArrHasStrLeaf] at h
    | cons x xs ihl =>
      simp only [jsonArrHasStrLeaf, Bool.or_eq_true] at h
      simp only [contains_placeholder_arr, Bool.or_eq_true]
      rcases h with h | h
      · exact Or.inl (ih x (List.mem_cons_self x xs) h)
      · exact Or.inr (ihl (fun y hy => ih y (List.mem_cons.mpr (Or.inr hy))) h)
  | hobj l ih =>
    intro h
    simp only [jsonHasStrLeaf] at h
    simp only [contains_placeholder]
    induction l with
    | nil => simp [jsonObjHasStrLeaf] at h
    | cons p ps ihl =>
      obtain ⟨k, v⟩ := p
      simp only [jsonObjHasStrLeaf, Bool.or_eq_true] at h
      simp only [contains_placeholder_obj, Bool.or_eq_true]
      rcases h with h | h
      · exact Or.inl (ih (k, v) (List.mem_cons_self _ ps) h)
      · exact Or.inr (ihl (fun y hy => ih y (List.mem_cons.mpr (Or.inr hy))) h)

/-! Claim C1: replay safety on unresolved placeholders. -/

/-- C1: if after recursive substitution of the binding into the URL,
the query-parameter map and the JSON-body template any
placeholder-shaped token remains, then `_call_endpoint` performs zero
network calls and returns a null result; in particular this holds when
the JSON-body template contains a placeholder leaf whose name is not a
key of the binding. -/
theorem call_endpoint_unresolved_safe {α : Type} (fetch : FetchCall → α) (ep : Template)
    (fields : Binding) :
    ((contains_placeholder_str (formatString ep.url fields) = true ∨
      (ep.params.map (fun p => (p.1, formatString p.2 fields))).any
        (fun p => contains_placeholder_str p.2) = true ∨
      containsPlaceholderOpt (ep.json.map (format_recursive fields)) = true) →
      call_endpoint fetch ep fields = (none, 0)) ∧
    (∀ name : String, ∀ j : Json, isIdentName name.data = true →
      lookupStr fields name.data = none → ep.json = some j →
      jsonHasStrLeaf ("\x7b" ++ name ++ "\x7d") j = true →
      call_endpoint fetch ep fields = (none, 0)) := by
  have main : (contains_placeholder_str (formatString ep.url fields) = true ∨
      (ep.params.map (fun p => (p.1, formatString p.2 fields))).any
        (fun p => contains_placeholder_str p.2) = true ∨
      containsPlaceholderOpt (ep.json.map (format_recursive fields)) = true) →
      call_endpoint fetch ep fields = (none, 0) := by
    intro h
    have hcond : (contains_placeholder_str (formatString ep.url fields) ||
        (ep.params.map (fun p => (p.1, formatString p.2 fields))).any
          (fun p => contains_placeholder_str p.2) ||
        containsPlaceholderOpt (ep.json.map (format_recursive fields))) = true := by
      rcases h with h | h | h <;> simp [h]
    simp only [call_endpoint]
    rw [hcond]
    rfl
  refine ⟨main, fun name j hid hmiss hjson hleaf => ?_⟩
  have htarget := formatString_exact_placeholder_missing fields name hid hmiss
  have hleaf2 := format_recursive_leaf fields ("\x7b" ++ name ++ "\x7d") j hleaf
  rw [htarget] at hleaf2
  have hcontains := contains_placeholder_of_leaf _
    (contains_placeholder_str_exact name hid) _ hleaf2
  refine main (Or.inr (Or.inr ?_))
  rw [hjson]
  simpa [containsPlaceholderOpt] using hcontains

/-- Witness for C1: the template with body `\x7bimport_id\x7d` under a
binding lacking `import_id` yields a null result and zero calls. -/
theorem call_endpoint_unresolved_safe_witness :
    call_endpoint (fun _ => ()) tmplUnresolved [("page", "2")] = (none, 0) :=
  (call_endpoint_unresolved_safe (fun _ => ()) tmplUnresolved [("page", "2")]).2
    "import_id" (.obj [("importId", .str "{import_id}")])
    (by decide) (by decide) rfl (by decide)

/-! Claim C7: path templating and the three-event scenario. -/

theorem template_path_segments (p : String) (role : String) :
    splitOnSep '/' (template_path p role).data =
      (splitOnSep '/' p.data).map (segRule role) := by
  unfold template_path
  show splitOnSep '/' (joinOnSep '/' ((splitOnSep '/' p.data).map (segRule role))) = _
  apply splitOnSep_joinOnSep
  · intro hnil
    exact splitOnSep_ne_nil '/' p.data (List.map_eq_nil_iff.mp hnil)
  · intro s hs
    rcases List.mem_map.mp hs with ⟨t, ht, rfl⟩
    unfold segRule
    split_ifs
    · exact splitOnSep_mem_not_sep '/' p.data t ht
    · decide
    · exact splitOnSep_mem_not_sep '/' p.data t ht

theorem segRule_imports_list (seg : List Char) : segRule "imports_list" seg = seg := by
  unfold segRule
  split_ifs with h1 h2
  · rfl
  · exact absurd h2 (by simp)
  · rfl

theorem template_path_imports_list (p : String) : template_path p "imports_list" = p := by
  unfold template_path
  have hmap : (splitOnSep '/' p.data).map (segRule "imports_list") = splitOnSep '/' p.data := by
    have hfun : segRule "imports_list" = id := funext segRule_imports_list
    rw [hfun, List.map_id]
  rw [hmap, joinOnSep_splitOnSep]

/-- C7: the template URL path replaces each non-empty segment that is
purely numeric or 16-plus hex-like characters with `\x7bimport_id\x7d`,
leaves every other segment unchanged, and performs no substitution for
the `imports_list` role; in the three-event scenario the catalog holds
`imports_list`, `import_products` and `import_suppliers`, with the
numeric segment 5 replaced by the placeholder in the latter two. -/
theorem template_path_rule :
    (∀ p : String, ∀ role : String, role ≠ "imports_list" →
      splitOnSep '/' (template_path p role).data =
        (splitOnSep '/' p.data).map (fun seg =>
          if seg ≠ [] ∧ (digitsL seg = true ∨ hexIdL seg = true) then "{import_id}".data
          else seg)) ∧
    (∀ p : String, template_path p "imports_list" = p) ∧
    ((infer_endpoints [evList, evProducts, evSuppliers]).imports_list.map (fun t => t.url) =
      some "https://portal.example/api/ImportPermit/List") ∧
    ((infer_endpoints [evList, evProducts, evSuppliers]).import_products.map (fun t => t.url) =
      some "https://portal.example/api/ImportPermit/{import_id}/Products") ∧
    ((infer_endpoints [evList, evProducts, evSuppliers]).import_suppliers.map (fun t => t.url) =
      some "https://portal.example/api/ImportPermit/{import_id}/Suppliers") := by
  refine ⟨fun p role hrole => ?_, template_path_imports_list, rfl, rfl, rfl⟩
  rw [template_path_segments]
  have hfun : segRule role = fun seg =>
      if seg ≠ [] ∧ (digitsL seg = true ∨ hexIdL seg = true) then "{import_id}".data
      else seg := by
    funext seg
    unfold segRule
    by_cases h1 : seg.isEmpty
    · have hseg : seg = [] := List.isEmpty_iff.mp h1
      subst hseg
      simp
    · have hne : seg ≠ [] := fun hh => h1 (by simp [hh])
      rw [if_neg (by simpa using h1)]
      by_cases h2 : digitsL seg = true ∨ hexIdL seg = true
      · rw [if_pos, if_pos ⟨hne, h2⟩]
        simp only [Bool.and_eq_true, decide_eq_true_eq]
        exact ⟨hrole, by rcases h2 with h | h <;> simp [h]⟩
      · have hcond : ¬ ((decide (role ≠ "imports_list") && (digitsL seg || hexIdL seg)) = true) := by
          simp only [Bool.and_eq_true, decide_eq_true_eq]
          rintro ⟨-, hor⟩
          rw [Bool.or_eq_true] at hor
          exact h2 hor
        rw [if_neg hcond, if_neg (fun hcon => h2 hcon.2)]
  rw [hfun]

/-- Witness for C7: the rule applied to the products event URL of the
scenario. -/
theorem template_path_rule_witness :
    splitOnSep '/' (template_path (parseUrl evProducts.url).path "import_products").data =
      (splitOnSep '/' (parseUrl evProducts.url).path.data).map (fun seg =>
        if seg ≠ [] ∧ (digitsL seg = true ∨ hexIdL seg = true) then "{import_id}".data
        else seg) :=
  template_path_rule.1 (parseUrl evProducts.url).path "import_products" (by decide)

/-! Character lemmas for lowercase scheme handling. -/

theorem toLower_of_isLower {c : Char} (h : c.isLower = true) : c.toLower = c := by
  unfold Char.toLower
  rw [if_neg]
  intro hcond
  obtain ⟨h1, h2⟩ := hcond
  simp only [Char.isLower, Bool.and_eq_true, decide_eq_true_eq] at h
  have hge : (97 : UInt32) ≤ c.val := h.1
  have hnat : 97 ≤ Char.toNat c := UInt32.le_toNat_of_le (by norm_num [UInt32.size]) hge
  omega

theorem isAlpha_of_isLower {c : Char} (h : c.isLower = true) : c.isAlpha = true := by
  simp [Char.isAlpha, h]

theorem isSchemeChar_of_isLower {c : Char} (h : c.isLower = true) : isSchemeChar c = true := by
  simp [isSchemeChar, Char.isAlphanum, isAlpha_of_isLower h]

theorem validScheme_of_lower (l : List Char) (h1 : l ≠ []) (h2 : l.all Char.isLower = true) :
    validScheme l = true := by
  cases l with
  | nil => exact absurd rfl h1
  | cons c cs =>
    simp only [List.all_cons, Bool.and_eq_true] at h2
    simp only [validScheme, Bool.and_eq_true]
    refine ⟨isAlpha_of_isLower h2.1, ?_⟩
    rw [List.all_eq_true] at h2 ⊢
    exact fun x hx => isSchemeChar_of_isLower (h2.2 x hx)

theorem map_toLower_of_lower (l : List Char) (h : l.all Char.isLower = true) :
    l.map Char.toLower = l := by
  induction l with
  | nil => rfl
  | cons c cs ih =>
    simp only [List.all_cons, Bool.and_eq_true] at h
    simp only [List.map_cons, toLower_of_isLower h.1, ih h.2]

theorem lower_ne_of_not_lower {c : Char} {c0 : Char} (h : c.isLower = true)
    (h0 : c0.isLower = false) : c ≠ c0 := by
  intro hc
  subst hc
  rw [h0] at h
  exact absurd h (by simp)

/-! Stagewise behaviour of the `urlparse` model on well-formed URLs. -/

theorem parseScheme_concat (scheme : String) (rest : List Char)
    (hs1 : scheme.data ≠ []) (hs2 : scheme.data.all Char.isLower = true) :
    parseScheme (scheme.data ++ ':' :: rest) = (scheme, rest) := by
  have hcolon : ':' ∉ scheme.data := by
    intro hmem
    exact absurd (List.all_eq_true.mp hs2 ':' hmem) (by decide)
  unfold parseScheme
  rw [splitFirst_append_sep ':' scheme.data rest hcolon]
  show (if validScheme scheme.data = true
      then (String.mk (scheme.data.map Char.toLower), rest)
      else ("", scheme.data ++ ':' :: rest)) = (scheme, rest)
  rw [if_pos (validScheme_of_lower scheme.data hs1 hs2)]
  rw [map_toLower_of_lower scheme.data hs2]

theorem parseNetloc_concat (netloc : String) (tail : List Char)
    (hn : ∀ c ∈ netloc.data, c ≠ '/' ∧ c ≠ '?' ∧ c ≠ '#')
    (htail : tail = [] ∨ ∃ c0 tl, tail = c0 :: tl ∧ (c0 = '/' ∨ c0 = '?' ∨ c0 = '#')) :
    parseNetloc ('/' :: '/' :: (netloc.data ++ tail)) = (netloc, tail) := by
  have hall : ∀ c ∈ netloc.data, (c ≠ '/' && c ≠ '?' && c ≠ '#') = true := by
    intro c hc
    rcases hn c hc with ⟨h1, h2, h3⟩
    simp [h1, h2, h3]
  have htake : (netloc.data ++ tail).takeWhile (fun c => c ≠ '/' && c ≠ '?' && c ≠ '#') =
      netloc.data := by
    rw [takeWhile_append_all _ _ _ hall]
    rcases htail with h | ⟨c0, tl, rfl, hc0⟩
    · simp [h]
    · have hfalse : (decide (c0 ≠ '/') && decide (c0 ≠ '?') && decide (c0 ≠ '#')) = false := by
        rcases hc0 with h | h | h <;> subst h <;> decide
      rw [List.takeWhile_cons, hfalse]
      simp
  unfold parseNetloc
  show (String.mk ((netloc.data ++ tail).takeWhile (fun c => c ≠ '/' && c ≠ '?' && c ≠ '#')),
      (netloc.data ++ tail).drop
        (((netloc.data ++ tail).takeWhile (fun c => c ≠ '/' && c ≠ '?' && c ≠ '#')).length)) =
      (netloc, tail)
  rw [htake, List.drop_left]

theorem parsePathQuery_concat (path q : String)
    (hp1 : ∀ c ∈ path.data, c ≠ '?' ∧ c ≠ '#')
    (hq : q = "" ∨ ∃ q1, q.data = '?' :: q1) :
    (parsePathQuery (path.data ++ q.data)).1 = path := by
  have hallp : ∀ c ∈ path.data, (c ≠ '#' : Bool) = true := by
    intro c hc
    simp [(hp1 c hc).2]
  have hqmark : '?' ∉ path.data := fun hmem => (hp1 '?' hmem).1 rfl
  unfold parsePathQuery
  rw [takeWhile_append_all _ _ _ hallp]
  rcases hq with h | ⟨q1, hq1⟩
  · subst h
    rw [show ("" : String).data = ([] : List Char) from rfl, List.takeWhile_nil,
      List.append_nil, splitFirst_none '?' path.data hqmark]
  · rw [hq1]
    rw [show List.takeWhile (fun c => (c ≠ '#' : Bool)) ('?' :: q1) =
        '?' :: List.takeWhile (fun c => (c ≠ '#' : Bool)) q1 from by
      rw [List.takeWhile_cons, if_pos (by decide)]]
    rw [splitFirst_append_sep '?' path.data _ hqmark]

theorem parseUrl_data (u : String) (scheme netloc path q : String)
    (hdata : u.data = scheme.data ++ ':' :: '/' :: '/' :: (netloc.data ++ path.data ++ q.data))
    (hs1 : scheme.data ≠ []) (hs2 : scheme.data.all Char.isLower = true)
    (hn : ∀ c ∈ netloc.data, c ≠ '/' ∧ c ≠ '?' ∧ c ≠ '#')
    (hp1 : ∀ c ∈ path.data, c ≠ '?' ∧ c ≠ '#')
    (hp2 : path = "" ∨ path.data.head? = some '/')
    (hq : q = "" ∨ ∃ q1, q.data = '?' :: q1) :
    (parseUrl u).scheme = scheme ∧ (parseUrl u).netloc = netloc ∧ (parseUrl u).path = path := by
  have hsch : parseScheme u.data =
      (scheme, '/' :: '/' :: (netloc.data ++ path.data ++ q.data)) := by
    rw [hdata]
    exact parseScheme_concat scheme _ hs1 hs2
  have htail : (path.data ++ q.data) = [] ∨
      ∃ c0 tl, (path.data ++ q.data) = c0 :: tl ∧ (c0 = '/' ∨ c0 = '?' ∨ c0 = '#') := by
    rcases hp2 with h | h
    · subst h
      rcases hq with h2 | ⟨q1, hq1⟩
      · subst h2
        left
        rfl
      · right
        refine ⟨'?', q1, ?_, Or.inr (Or.inl rfl)⟩
        rw [show ("" : String).data = ([] : List Char) from rfl, List.nil_append, hq1]
    · cases hpd : path.data with
      | nil =>
        rw [hpd] at h
        simp at h
      | cons c pr =>
        rw [hpd] at h
        simp only [List.head?_cons, Option.some.injEq] at h
        subst h
        right
        exact ⟨'/', pr ++ q.data, by simp, Or.inl rfl⟩
  have hnet : parseNetloc ('/' :: '/' :: (netloc.data ++ path.data ++ q.data)) =
      (netloc, path.data ++ q.data) := by
    rw [List.append_assoc]
    exact parseNetloc_concat netloc _ hn htail
  have hpq := parsePathQuery_concat path q hp1 hq
  refine ⟨?_, ?_, ?_⟩ <;> simp only [parseUrl, hsch, hnet]
  exact hpq

theorem urlunparse_data (scheme netloc path : String) (hs : scheme ≠ "") (hn : netloc ≠ "")
    (hp : path = "" ∨ path.data.head? = some '/') :
    (urlunparseSNP scheme netloc path).data =
      scheme.data ++ ':' :: '/' :: '/' :: (netloc.data ++ path.data) := by
  unfold urlunparseSNP
  rw [if_pos hs]
  rw [if_pos (show (decide (netloc ≠ "") || decide (path.data.take 2 = ['/', '/'])) = true
    by simp [hn])]
  rw [if_neg (show ¬ ((decide (path ≠ "") && decide (path.data.head? ≠ some '/')) = true)
    by rcases hp with h | h <;> simp [h])]
  rw [show (scheme ++ ":" ++ ("//" ++ netloc ++ path)).data =
      scheme.data ++ [':'] ++ (['/', '/'] ++ netloc.data ++ path.data) from by
    simp [String.data_append]]
  simp [List.append_assoc]

theorem template_path_head (p : String) (role : String)
    (hp : p = "" ∨ p.data.head? = some '/') :
    template_path p role = "" ∨ (template_path p role).data.head? = some '/' := by
  rcases hp with h | h
  · subst h
    left
    rfl
  · right
    cases hpd : p.data with
    | nil =>
      rw [hpd] at h
      simp at h
    | cons c rest =>
      rw [hpd] at h
      simp only [List.head?_cons, Option.some.injEq] at h
      subst h
      show (joinOnSep '/' ((splitOnSep '/' p.data).map (segRule role))).head? = some '/'
      rw [hpd]
      rw [show splitOnSep '/' ('/' :: rest) = [] :: splitOnSep '/' rest from rfl]
      rw [List.map_cons]
      rw [show segRule role [] = [] from rfl]
      cases hsp : (splitOnSep '/' rest).map (segRule role) with
      | nil => exact absurd (List.map_eq_nil_iff.mp hsp) (splitOnSep_ne_nil '/' rest)
      | cons s ss =>
        rw [joinOnSep_cons_of_ne_nil '/' [] (s :: ss) (by simp)]
        rfl

theorem splitOnSep_mem_subset (sep : Char) (l : List Char) :
    ∀ s ∈ splitOnSep sep l, ∀ c ∈ s, c ∈ l := by
  induction l with
  | nil =>
    intro s hs c hc
    simp [splitOnSep] at hs
    subst hs
    simp at hc
  | cons c0 rest ih =>
    intro s hs c hc
    simp only [splitOnSep] at hs
    by_cases hsep : c0 = sep
    · rw [if_pos hsep] at hs
      rcases List.mem_cons.mp hs with h | h
      · subst h
        simp at hc
      · exact List.mem_cons.mpr (Or.inr (ih s h c hc))
    · rw [if_neg hsep] at hs
      cases hsp : splitOnSep sep rest with
      | nil => exact absurd hsp (splitOnSep_ne_nil sep rest)
      | cons t ts =>
        rw [hsp] at hs
        rcases List.mem_cons.mp hs with h | h
        · subst h
          rcases List.mem_cons.mp hc with h2 | h2
          · exact h2 ▸ List.mem_cons_self c0 rest
          · exact List.mem_cons.mpr (Or.inr (ih t (hsp ▸ List.mem_cons_self t ts) c h2))
        · exact List.mem_cons.mpr (Or.inr (ih s (hsp ▸ List.mem_cons.mpr (Or.inr h)) c hc))

theorem joinOnSep_mem (sep : Char) (segs : List (List Char)) :
    ∀ c ∈ joinOnSep sep segs, c = sep ∨ ∃ s ∈ segs, c ∈ s := by
  induction segs with
  | nil =>
    intro c hc
    simp [joinOnSep] at hc
  | cons s ss ih =>
    intro c hc
    cases ss with
    | nil =>
      simp only [joinOnSep] at hc
      exact Or.inr ⟨s, List.mem_cons_self s [], hc⟩
    | cons t ts =>
      rw [joinOnSep_cons_of_ne_nil sep s (t :: ts) (by simp)] at hc
      rcases List.mem_append.mp hc with h | h
      · exact Or.inr ⟨s, List.mem_cons_self _ _, h⟩
      · rcases List.mem_cons.mp h with h2 | h2
        · exact Or.inl h2
        · rcases ih c h2 with h3 | ⟨s2, hs2, hc2⟩
          · exact Or.inl h3
          · exact Or.inr ⟨s2, List.mem_cons.mpr (Or.inr hs2), hc2⟩

theorem template_path_not_mem (p : String) (role : String) (c0 : Char)
    (hc0 : c0 ∉ p.data) (hph : c0 ∉ "{import_id}".data) (hsl : c0 ≠ '/') :
    c0 ∉ (template_path p role).data := by
  intro hmem
  have hmem2 : c0 ∈ joinOnSep '/' ((splitOnSep '/' p.data).map (segRule role)) := hmem
  rcases joinOnSep_mem '/' _ c0 hmem2 with h | ⟨s, hs, hc⟩
  · exact hsl h
  · rcases List.mem_map.mp hs with ⟨t, ht, rfl⟩
    unfold segRule at hc
    split_ifs at hc
    · exact hc0 (splitOnSep_mem_subset '/' p.data t ht c0 hc)
    · exact hph hc
    · exact hc0 (splitOnSep_mem_subset '/' p.data t ht c0 hc)

/-! Single-step equations of the format scanner. -/

theorem fmtGo_norm_brace_nil (b : Binding) : fmtGo b .norm ['{'] = none := rfl

theorem fmtGo_norm_brace_cons (b : Binding) (c2 : Char) (rest2 : List Char) :
    fmtGo b .norm ('{' :: c2 :: rest2) =
      (if c2 = '{' then (fmtGo b .norm rest2).map (fun out => '{' :: out)
       else fmtGo b (.field []) (c2 :: rest2)) := rfl

theorem fmtGo_norm_close_nil (b : Binding) : fmtGo b .norm ['}'] = none := rfl

theorem fmtGo_norm_close_cons (b : Binding) (c2 : Char) (rest2 : List Char) :
    fmtGo b .norm ('}' :: c2 :: rest2) =
      (if c2 = '}' then (fmtGo b .norm rest2).map (fun out => '}' :: out)
       else none) := rfl

theorem fmtGo_norm_other (b : Binding) (c : Char) (rest : List Char)
    (h1 : c ≠ '{') (h2 : c ≠ '}') :
    fmtGo b .norm (c :: rest) = (fmtGo b .norm rest).map (fun out => c :: out) := by
  rw [fmtGo.eq_def]
  simp [h1, h2]

theorem fmtGo_field_cons (b : Binding) (acc : List Char) (c : Char) (rest0 : List Char) :
    fmtGo b (.field acc) (c :: rest0) =
      (if c = '}' then
        (match evalField b acc.reverse with
         | some w => (fmtGo b .norm rest0).map (fun out => w ++ out)
         | none => none)
      else fmtGo b (.field (c :: acc)) rest0) := rfl

theorem lookupStr_mem (b : Binding) (name : List Char) (v : String)
    (h : lookupStr b name = some v) : ∃ p ∈ b, p.2 = v := by
  unfold lookupStr at h
  cases hf : b.find? (fun p => p.1.data == name) with
  | none =>
    rw [hf] at h
    simp at h
  | some p =>
    rw [hf] at h
    simp only [Option.map_some', Option.some.injEq] at h
    exact ⟨p, List.mem_of_find?_eq_some hf, h⟩

/-! Brace-free prefixes format verbatim. -/

theorem fmtGo_pre_append (b : Binding) (pre : List Char)
    (h : ∀ c ∈ pre, c ≠ '{' ∧ c ≠ '}') :
    ∀ rest, fmtGo b .norm (pre ++ rest) =
      (fmtGo b .norm rest).map (fun out => pre ++ out) := by
  induction pre with
  | nil =>
    intro rest
    simp
  | cons c pre0 ih =>
    intro rest
    rcases h c (List.mem_cons_self c pre0) with ⟨hc1, hc2⟩
    rw [List.cons_append, fmtGo_norm_other b c _ hc1 hc2,
      ih (fun x hx => h x (List.mem_cons.mpr (Or.inr hx))) rest]
    cases fmtGo b .norm rest <;> simp

theorem fmtGo_bracefree (b : Binding) (l : List Char) (h : ∀ c ∈ l, c ≠ '{' ∧ c ≠ '}') :
    fmtGo b .norm l = some l := by
  have hp := fmtGo_pre_append b l h []
  rw [List.append_nil] at hp
  rw [hp]
  simp [fmtGo]

/-! Formatting a slash-join of template segments, each of them either
brace-free or the exact inserted placeholder: on success the slash
count is preserved and every output character comes from the input or
from a binding value. -/

theorem fmtGo_plain_join (b : Binding) (hbv : ∀ p ∈ b, '/' ∉ p.2.data) :
    ∀ SS : List (List Char),
      (∀ s ∈ SS, (∀ c ∈ s, c ≠ '{' ∧ c ≠ '}') ∨ s = "{import_id}".data) →
      ∀ out, fmtGo b .norm (joinOnSep '/' SS) = some out →
        out.count '/' = (joinOnSep '/' SS).count '/' ∧
        ∀ c ∈ out, c ∈ joinOnSep '/' SS ∨ ∃ p ∈ b, c ∈ p.2.data := by
  intro SS
  induction SS with
  | nil =>
    intro _ out h
    have h2 : some ([] : List Char) = some out := by simpa [joinOnSep, fmtGo] using h
    have hout : out = [] := by simpa using h2.symm
    subst hout
    exact ⟨rfl, by simp⟩
  | cons s ss ih =>
    intro hseg out h
    cases ss with
    | nil =>
      rw [show joinOnSep '/' [s] = s from rfl] at h ⊢
      rcases hseg s (List.mem_cons_self s []) with hfree | hph
      · rw [fmtGo_bracefree b s hfree] at h
        have hout : out = s := by simpa using h.symm
        subst hout
        exact ⟨rfl, fun c hc => Or.inl hc⟩
      · subst hph
        rw [show ("{import_id}".data : List Char) =
          '{' :: ("import_id".data ++ '}' :: ([] : List Char)) from rfl] at h
        rw [fmtGo_plain_field b "import_id".data (by decide) []] at h
        cases hv : lookupStr b "import_id".data with
        | none =>
          rw [hv] at h
          exact absurd h (by simp)
        | some v =>
          rw [hv] at h
          have hout : out = v.data := by
            have h2 : some (v.data ++ []) = some out := by simpa [fmtGo] using h
            simpa using h2.symm
          subst hout
          obtain ⟨p, hp, hpv⟩ := lookupStr_mem b "import_id".data v hv
          constructor
          · rw [List.count_eq_zero.mpr (hpv ▸ hbv p hp)]
            decide
          · intro c hc
            exact Or.inr ⟨p, hp, hpv ▸ hc⟩
    | cons t ts =>
      rw [joinOnSep_cons_of_ne_nil '/' s (t :: ts) (by simp)] at h ⊢
      rcases hseg s (List.mem_cons_self s (t :: ts)) with hfree | hph
      · rw [fmtGo_pre_append b s hfree,
          fmtGo_norm_other b '/' (joinOnSep '/' (t :: ts)) (by decide) (by decide)] at h
        cases hres : fmtGo b .norm (joinOnSep '/' (t :: ts)) with
        | none =>
          rw [hres] at h
          exact absurd h (by simp)
        | some out3 =>
          rw [hres] at h
          have hout : out = s ++ '/' :: out3 := by simpa using h.symm
          subst hout
          obtain ⟨hcnt, hmem⟩ :=
            ih (fun x hx => hseg x (List.mem_cons.mpr (Or.inr hx))) out3 hres
          constructor
          · rw [List.count_append, List.count_append, List.count_cons_self,
              List.count_cons_self, hcnt]
          · intro c hc
            rcases List.mem_append.mp hc with h1 | h1
            · exact Or.inl (List.mem_append.mpr (Or.inl h1))
            · rcases List.mem_cons.mp h1 with h2 | h2
              · subst h2
                exact Or.inl (List.mem_append.mpr (Or.inr (List.mem_cons_self _ _)))
              · rcases hmem c h2 with h3 | h3
                · exact Or.inl (List.mem_append.mpr (Or.inr (List.mem_cons.mpr (Or.inr h3))))
                · exact Or.inr h3
      · subst hph
        rw [show ("{import_id}".data : List Char) ++ '/' :: joinOnSep '/' (t :: ts) =
          '{' :: ("import_id".data ++ '}' :: ('/' :: joinOnSep '/' (t :: ts))) from rfl] at h
        rw [fmtGo_plain_field b "import_id".data (by decide)] at h
        cases hv : lookupStr b "import_id".data with
        | none =>
          rw [hv] at h
          exact absurd h (by simp)
        | some v =>
          rw [hv,
            fmtGo_norm_other b '/' (joinOnSep '/' (t :: ts)) (by decide) (by decide)] at h
          cases hres : fmtGo b .norm (joinOnSep '/' (t :: ts)) with
          | none =>
            rw [hres] at h
            exact absurd h (by simp)
          | some out3 =>
            rw [hres] at h
            have hout : out = v.data ++ '/' :: out3 := by simpa using h.symm
            subst hout
            obtain ⟨hcnt, hmem⟩ :=
              ih (fun x hx => hseg x (List.mem_cons.mpr (Or.inr hx))) out3 hres
            obtain ⟨p, hp, hpv⟩ := lookupStr_mem b "import_id".data v hv
            constructor
            · rw [List.count_append, List.count_append, List.count_cons_self,
                List.count_cons_self, hcnt, List.count_eq_zero.mpr (hpv ▸ hbv p hp),
                show ("{import_id}".data : List Char).count '/' = 0 from rfl]
            · intro c hc
              rcases List.mem_append.mp hc with h1 | h1
              · exact Or.inr ⟨p, hp, hpv ▸ h1⟩
              · rcases List.mem_cons.mp h1 with h2 | h2
                · subst h2
                  exact Or.inl (List.mem_append.mpr (Or.inr (List.mem_cons_self _ _)))
                · rcases hmem c h2 with h3 | h3
                  · exact Or.inl (List.mem_append.mpr (Or.inr (List.mem_cons.mpr (Or.inr h3))))
                  · exact Or.inr h3

/-! Claim C8: round-trip preservation of the path-segment count. -/

/-- C8 counterexample: the round-trip does not hold for every captured
event.  CPython `str.format` substitutes format-spec replacement
fields, so for an event whose URL path contains the literal field
`\x7bimport_id:/>10\x7d`, resolving the built template with the
event's own sampled identifier value pads that value to width 10 with
the fill character `/`, and the resolved URL has 13 path segments
against the original 5. -/
theorem template_roundtrip_counterexample :
    formatString (template_from_event evBraceSpec "import_products").url
        [("import_id", "5")] = "https://h.example/api/5/a/////////5b" ∧
    pathSegCount (formatString (template_from_event evBraceSpec "import_products").url
        [("import_id", "5")]) = 13 ∧
    pathSegCount evBraceSpec.url = 5 := by
  refine ⟨by decide, by decide, by decide⟩

/-- C8 (amended): building a template from an event whose URL
decomposes into a lowercase scheme, a netloc and a brace-free path,
and resolving the template URL with a binding whose values are
identifier-shaped (alphanumeric or hyphen, as every value the builder
replaced is), yields a URL whose number of path segments equals that
of the original URL; the brace-free restriction excludes original
paths that already contain replacement fields of their own. -/
theorem template_roundtrip (e : Event) (role : String) (b : Binding)
    (scheme netloc path q : String)
    (hurl : e.url = scheme ++ "://" ++ netloc ++ path ++ q)
    (hs1 : scheme.data ≠ []) (hs2 : scheme.data.all Char.isLower = true)
    (hn : ∀ c ∈ netloc.data, c ≠ '/' ∧ c ≠ '?' ∧ c ≠ '#' ∧ c ≠ '{' ∧ c ≠ '}')
    (hnn : netloc ≠ "")
    (hp1 : ∀ c ∈ path.data, c ≠ '?' ∧ c ≠ '#')
    (hp2 : path = "" ∨ path.data.head? = some '/')
    (hp3 : ∀ c ∈ path.data, c ≠ '{' ∧ c ≠ '}')
    (hq : q = "" ∨ ∃ q1, q.data = '?' :: q1)
    (hb : ∀ p ∈ b, ∀ c ∈ p.2.data, c.isAlphanum = true ∨ c = '-') :
    pathSegCount (formatString (template_from_event e role).url b) = pathSegCount e.url := by
  have hn3 : ∀ c ∈ netloc.data, c ≠ '/' ∧ c ≠ '?' ∧ c ≠ '#' :=
    fun c hc => ⟨(hn c hc).1, (hn c hc).2.1, (hn c hc).2.2.1⟩
  have hedata : e.url.data =
      scheme.data ++ ':' :: '/' :: '/' :: (netloc.data ++ path.data ++ q.data) := by
    rw [hurl]
    simp only [String.data_append]
    simp [List.append_assoc]
  have happ := parseUrl_data e.url scheme netloc path q hedata hs1 hs2 hn3 hp1 hp2 hq
  have htu : (template_from_event e role).url =
      urlunparseSNP scheme netloc (template_path path role) := by
    show urlunparseSNP (parseUrl e.url).scheme (parseUrl e.url).netloc
      (template_path (parseUrl e.url).path role) = _
    rw [happ.1, happ.2.1, happ.2.2]
  have hschne : scheme ≠ "" := by
    intro hh
    rw [hh] at hs1
    exact hs1 rfl
  have hpthead := template_path_head path role hp2
  have hud := urlunparse_data scheme netloc (template_path path role) hschne hnn hpthead
  have hqm : '?' ∉ path.data := fun hm => (hp1 '?' hm).1 rfl
  have hhm : '#' ∉ path.data := fun hm => (hp1 '#' hm).2 rfl
  have hptq : '?' ∉ (template_path path role).data :=
    template_path_not_mem path role '?' hqm (by decide) (by decide)
  have hpth : '#' ∉ (template_path path role).data :=
    template_path_not_mem path role '#' hhm (by decide) (by decide)
  have hpt1 : ∀ c ∈ (template_path path role).data, c ≠ '?' ∧ c ≠ '#' := by
    intro c hc
    exact ⟨fun hh => hptq (hh ▸ hc), fun hh => hpth (hh ▸ hc)⟩
  have hbslash : ∀ p ∈ b, '/' ∉ p.2.data := by
    intro p hp hmem
    rcases hb p hp '/' hmem with h | h
    · exact absurd h (by decide)
    · exact absurd h (by decide)
  have hbq : ∀ p ∈ b, '?' ∉ p.2.data := by
    intro p hp hmem
    rcases hb p hp '?' hmem with h | h
    · exact absurd h (by decide)
    · exact absurd h (by decide)
  have hbh : ∀ p ∈ b, '#' ∉ p.2.data := by
    intro p hp hmem
    rcases hb p hp '#' hmem with h | h
    · exact absurd h (by decide)
    · exact absurd h (by decide)
  have hprefree : ∀ c ∈ scheme.data ++ ':' :: '/' :: '/' :: netloc.data,
      c ≠ '{' ∧ c ≠ '}' := by
    intro c hc
    rcases List.mem_append.mp hc with h | h
    · have hl := List.all_eq_true.mp hs2 c h
      exact ⟨lower_ne_of_not_lower hl (by decide), lower_ne_of_not_lower hl (by decide)⟩
    · rcases List.mem_cons.mp h with h2 | h2
      · subst h2
        exact ⟨by decide, by decide⟩
      · rcases List.mem_cons.mp h2 with h3 | h3
        · subst h3
          exact ⟨by decide, by decide⟩
        · rcases List.mem_cons.mp h3 with h4 | h4
          · subst h4
            exact ⟨by decide, by decide⟩
          · exact ⟨(hn c h4).2.2.2.1, (hn c h4).2.2.2.2⟩
  have hsdata : (template_from_event e role).url.data =
      (scheme.data ++ ':' :: '/' :: '/' :: netloc.data) ++ (template_path path role).data := by
    rw [htu, hud]
    simp [List.append_assoc]
  have hfmt := fmtGo_pre_append b _ hprefree (template_path path role).data
  have hsegT : (splitOnSep '/' (template_path path role).data).length =
      (splitOnSep '/' path.data).length := by
    rw [template_path_segments path role, List.length_map]
  cases hres : fmtGo b .norm (template_path path role).data with
  | none =>
    have hform : formatString (template_from_event e role).url b =
        (template_from_event e role).url := by
      unfold formatString
      rw [hsdata, hfmt, hres]
      rfl
    rw [hform]
    have hud2 : (template_from_event e role).url.data = scheme.data ++ ':' :: '/' :: '/' ::
        (netloc.data ++ (template_path path role).data ++ ("" : String).data) := by
      rw [hsdata]
      simp [List.append_assoc]
    have happ2 := parseUrl_data (template_from_event e role).url scheme netloc
      (template_path path role) "" hud2 hs1 hs2 hn3 hpt1 hpthead (Or.inl rfl)
    show (splitOnSep '/' (parseUrl (template_from_event e role).url).path.data).length =
      (splitOnSep '/' (parseUrl e.url).path.data).length
    rw [happ2.2.2, happ.2.2, hsegT]
  | some outF =>
    have hform : formatString (template_from_event e role).url b =
        String.mk ((scheme.data ++ ':' :: '/' :: '/' :: netloc.data) ++ outF) := by
      unfold formatString
      rw [hsdata, hfmt, hres]
      rfl
    rw [hform]
    have hjs : joinOnSep '/' (splitOnSep '/' (template_path path role).data) =
        (template_path path role).data := joinOnSep_splitOnSep '/' _
    have hsegprop : ∀ s ∈ splitOnSep '/' (template_path path role).data,
        (∀ c ∈ s, c ≠ '{' ∧ c ≠ '}') ∨ s = "{import_id}".data := by
      intro s hs
      rw [template_path_segments path role] at hs
      rcases List.mem_map.mp hs with ⟨t, ht, rfl⟩
      unfold segRule
      split_ifs
      · exact Or.inl (fun c hc => hp3 c (splitOnSep_mem_subset '/' path.data t ht c hc))
      · exact Or.inr rfl
      · exact Or.inl (fun c hc => hp3 c (splitOnSep_mem_subset '/' path.data t ht c hc))
    have hres2 : fmtGo b .norm (joinOnSep '/' (splitOnSep '/' (template_path path role).data)) =
        some outF := by
      rw [hjs]
      exact hres
    obtain ⟨hcntF, hmemF⟩ := fmtGo_plain_join b hbslash _ hsegprop outF hres2
    rw [hjs] at hcntF hmemF
    have houtq : '?' ∉ outF := by
      intro hm
      rcases hmemF '?' hm with h1 | ⟨p, hp, hcp⟩
      · exact hptq h1
      · exact hbq p hp hcp
    have houth : '#' ∉ outF := by
      intro hm
      rcases hmemF '#' hm with h1 | ⟨p, hp, hcp⟩
      · exact hpth h1
      · exact hbh p hp hcp
    have houtslash : outF.count '/' = (template_path path role).data.count '/' := hcntF
    have hout1 : ∀ c ∈ (String.mk outF).data, c ≠ '?' ∧ c ≠ '#' := by
      intro c hc
      exact ⟨fun hh => houtq (hh ▸ hc), fun hh => houth (hh ▸ hc)⟩
    have hout2 : String.mk outF = "" ∨ (String.mk outF).data.head? = some '/' := by
      rcases hpthead with h | h
      · left
        have hnil : (template_path path role).data = [] := by
          rw [h]
        rw [hnil] at hres
        have : some ([] : List Char) = some outF := by simpa [fmtGo] using hres
        simp [← Option.some.injEq ([] : List Char) outF |>.mp this]
      · right
        cases hpd : (template_path path role).data with
        | nil =>
          rw [hpd] at h
          simp at h
        | cons c rest =>
          rw [hpd] at h
          simp only [List.head?_cons, Option.some.injEq] at h
          subst h
          rw [hpd, fmtGo_norm_other b '/' rest (by decide) (by decide)] at hres
          rcases Option.map_eq_some'.mp hres with ⟨out2, hout2, rfl⟩
          rfl
    have hud3 : (String.mk ((scheme.data ++ ':' :: '/' :: '/' :: netloc.data) ++ outF)).data =
        scheme.data ++ ':' :: '/' :: '/' ::
          (netloc.data ++ (String.mk outF).data ++ ("" : String).data) := by
      show (scheme.data ++ ':' :: '/' :: '/' :: netloc.data) ++ outF =
        scheme.data ++ ':' :: '/' :: '/' :: (netloc.data ++ outF ++ [])
      simp [List.append_assoc]
    have happ2 := parseUrl_data _ scheme netloc (String.mk outF) "" hud3 hs1 hs2 hn3
      hout1 hout2 (Or.inl rfl)
    show (splitOnSep '/'
        (parseUrl (String.mk ((scheme.data ++ ':' :: '/' :: '/' :: netloc.data) ++ outF))).path.data).length =
      (splitOnSep '/' (parseUrl e.url).path.data).length
    rw [happ2.2.2, happ.2.2]
    show (splitOnSep '/' outF).length = (splitOnSep '/' path.data).length
    rw [splitOnSep_length, houtslash, ← splitOnSep_length, hsegT]

/-- Witness for C8: the products event of the scenario, whose path is
brace-free, resolved with its own sampled identifier value 5, keeps
its five path segments. -/
theorem template_roundtrip_witness :
    pathSegCount (formatString
        (template_from_event evProducts "import_products").url [("import_id", "5")]) =
      pathSegCount evProducts.url :=
  template_roundtrip evProducts "import_products" [("import_id", "5")]
    "https" "portal.example" "/api/ImportPermit/5/Products" ""
    rfl (by decide) (by decide) (by decide) (by decide) (by decide)
    (Or.inr (by decide)) (by decide) (Or.inl rfl) (by decide)
